import Mathlib

/-!
# Verification of the `knit_graph` topology engine

Shallow embedding of the `knit_graphs` package (`Loop.py`, `Yarn.py`,
`Knit_Graph.py`, `artin_wale_braids/Wale.py`) and proofs about the claims of
its specification.

Loops are represented by their non-negative integer ids (`ℕ`): `_Base_Loop`
defines `__hash__`, `__eq__` and `__lt__` purely in terms of `loop_id`, so a
loop's identity in every graph structure is its id.  Yarns are likewise
represented by ids.  Python dictionaries and `networkx` graphs are embedded as
association lists and edge-record lists; Python `set`s of loops become
`Finset ℕ`.  Methods that mutate `self` become functions from the old state to
the new state; methods that may raise become functions returning the new state
paired with an optional raised error (a raise observed mid-method leaves the
mutations applied so far in place, exactly as in Python).
-/

/-- The two pull directions of `Pull_Direction.py` (`BtF` = knit, `FtB` = purl). -/
inductive PullDir where
  | BtF : PullDir
  | FtB : PullDir
deriving DecidableEq, Repr

/-- `Pull_Direction.opposite`. -/
def PullDir.opposite : PullDir → PullDir
  | .BtF => .FtB
  | .FtB => .BtF

/-- The Python exception kinds surfaced by the embedded code. -/
inductive PyErr where
  | keyErr : PyErr
  | typeErr : PyErr
  | valueErr : PyErr
  | assertErr : PyErr
deriving DecidableEq, Repr

/-- Pointwise update of a function, used to model assignment to an attribute of
one object in a heap of objects indexed by `ℕ`. -/
def updf {α : Type} (f : ℕ → α) (k : ℕ) (v : α) : ℕ → α :=
  fun x => if x = k then v else f x

/-- `_Base_Loop.__init__`: `assert loop_id >= 0` rejects a negative id with an
`AssertionError`; otherwise the id is stored. -/
def baseLoopInit (loopId : ℤ) : Except PyErr ℤ :=
  if loopId < 0 then .error .assertErr else .ok loopId

/-! ## The Yarn embedding (`Yarn.py`)

`Yarn.loop_graph` is a `networkx.DiGraph` over loops whose edges carry two
set-valued attributes `Front_Loops` and `Back_Loops`.  We embed it as a list of
nodes (in insertion order) and a list of edge records. -/

/-- One edge of `Yarn.loop_graph`: the directed pair of loops plus the
`Front_Loops` and `Back_Loops` attribute sets. -/
structure YEdge where
  src : ℕ
  dst : ℕ
  front : Finset ℕ
  back : Finset ℕ
deriving DecidableEq

/-- The state of one `Yarn`: the `loop_graph` (nodes and attributed edges) and
the `_first_loop` / `_last_loop` pointers. -/
structure YarnM where
  nodes : List ℕ := []
  edges : List YEdge := []
  first : Option ℕ := none
  last : Option ℕ := none
deriving DecidableEq

/-- A freshly constructed `Yarn` (no loops). -/
def YarnM.empty : YarnM := {}

/-- `loop_graph.has_edge(u, v)` (directed). -/
def YarnM.hasEdge (y : YarnM) (u v : ℕ) : Bool :=
  y.edges.any fun e => e.src = u ∧ e.dst = v

/-- `loop_graph.edges[u, v]` lookup. -/
def YarnM.getEdge (y : YarnM) (u v : ℕ) : Option YEdge :=
  y.edges.find? fun e => e.src = u ∧ e.dst = v

/-- `Yarn.has_float(u, v)`: `bool(self.loop_graph.has_edge(u, v))` — note that
this checks only the stored direction of the edge. -/
def YarnM.has_float (y : YarnM) (u v : ℕ) : Bool :=
  y.hasEdge u v

/-- `Yarn.get_loops_in_front_of_float(u, v)`.  The Python body recurses once on
the swapped arguments when only the reversed edge exists; the recursion then
takes the `else` branch immediately, so it unfolds to this order-check chain. -/
def YarnM.get_loops_in_front_of_float (y : YarnM) (u v : ℕ) : Finset ℕ :=
  if y.has_float u v then
    match y.getEdge u v with
    | some e => e.front
    | none => ∅
  else if y.has_float v u then
    match y.getEdge v u with
    | some e => e.front
    | none => ∅
  else ∅

/-- `Yarn.get_loops_behind_float(u, v)`, unfolded in the same way. -/
def YarnM.get_loops_behind_float (y : YarnM) (u v : ℕ) : Finset ℕ :=
  if y.has_float u v then
    match y.getEdge u v with
    | some e => e.back
    | none => ∅
  else if y.has_float v u then
    match y.getEdge v u with
    | some e => e.back
    | none => ∅
  else ∅

/-- `networkx` `add_node`: a no-op when the node is already present, otherwise
the node is appended. -/
def addNode (ns : List ℕ) (l : ℕ) : List ℕ :=
  if l ∈ ns then ns else ns ++ [l]

/-- `networkx` `add_edge(u, v, Front_Loops=set(), Back_Loops=set())`: an
existing `(u, v)` edge has its attributes overwritten, otherwise the edge is
added. -/
def addYEdge (es : List YEdge) (u v : ℕ) : List YEdge :=
  es.filter (fun e => ¬(e.src = u ∧ e.dst = v)) ++ [⟨u, v, ∅, ∅⟩]

/-- `Yarn.insert_loop(loop, prior_loop)`: adds the loop as a node; on an empty
yarn it just becomes first and last; otherwise an edge from the prior loop
(defaulting to the current last loop) is added, and the last-loop pointer moves
only when the prior loop was the last loop. -/
def YarnM.insert_loop (y : YarnM) (l : ℕ) (prior : Option ℕ) : YarnM :=
  let ns := addNode y.nodes l
  match y.last with
  | none => { y with nodes := ns, first := some l, last := some l }
  | some lastL =>
    let p := prior.getD lastL
    { y with
      nodes := ns
      edges := addYEdge y.edges p l
      last := if p = lastL then some l else y.last }

/-- The per-loop float bookkeeping of a `Loop`: its `front_floats` and
`back_floats` dictionaries (`dict[Loop, set[Loop]]`). -/
structure LoopFloats where
  front : List (ℕ × Finset ℕ) := []
  back : List (ℕ × Finset ℕ) := []
deriving DecidableEq

/-- `d.setdefault(k, set())` followed by `d[k].add(v)` on a
`dict[Loop, set[Loop]]` (the `if u not in dict: dict[u] = set()` +
`dict[u].add(v)` idiom of `Loop.py`). -/
def dictAddToSet (d : List (ℕ × Finset ℕ)) (k v : ℕ) : List (ℕ × Finset ℕ) :=
  match d.find? (fun p => p.1 = k) with
  | some _ => d.map fun p => if p.1 = k then (p.1, insert v p.2) else p
  | none => d ++ [(k, insert v {v})]

/-- `Loop.add_loop_in_front_of_float(u, v)`: records the float `{u, v}` in the
loop's `back_floats` dictionary under both key orders. -/
def LoopFloats.add_loop_in_front_of_float (f : LoopFloats) (u v : ℕ) : LoopFloats :=
  { f with back := dictAddToSet (dictAddToSet f.back u v) v u }

/-- `Loop.add_loop_behind_float(u, v)`: records the float `{u, v}` in the
loop's `front_floats` dictionary under both key orders. -/
def LoopFloats.add_loop_behind_float (f : LoopFloats) (u v : ℕ) : LoopFloats :=
  { f with front := dictAddToSet (dictAddToSet f.front u v) v u }

/-- Adds `fl` to the `Front_Loops` attribute of the `(u, v)` edge. -/
def addToEdgeFront (es : List YEdge) (u v fl : ℕ) : List YEdge :=
  es.map fun e => if e.src = u ∧ e.dst = v then { e with front := insert fl e.front } else e

/-- Adds `bl` to the `Back_Loops` attribute of the `(u, v)` edge. -/
def addToEdgeBack (es : List YEdge) (u v bl : ℕ) : List YEdge :=
  es.map fun e => if e.src = u ∧ e.dst = v then { e with back := insert bl e.back } else e

/-- `Yarn.add_loop_in_front_of_float(front_loop, u, v)`.  When neither edge
direction exists the method returns without touching any state.  When only the
reversed edge exists, the method recurses on the swapped arguments (which
records the registration under `(v, u)`) but then falls through to
`self.loop_graph.edges[u, v]`, which raises a `KeyError` on the missing edge;
the recursive mutation remains applied.  Returns the new yarn state, the new
state of `front_loop`'s float dictionaries, and the raised error if any. -/
def YarnM.add_loop_in_front_of_float (y : YarnM) (f : LoopFloats) (fl u v : ℕ) :
    (YarnM × LoopFloats) × Option PyErr :=
  if y.has_float u v then
    (({ y with edges := addToEdgeFront y.edges u v fl },
      f.add_loop_in_front_of_float u v), none)
  else if y.has_float v u then
    (({ y with edges := addToEdgeFront y.edges v u fl },
      f.add_loop_in_front_of_float v u), some .keyErr)
  else ((y, f), none)

/-- `Yarn.add_loop_behind_float(back_loop, u, v)`, with the same structure. -/
def YarnM.add_loop_behind_float (y : YarnM) (f : LoopFloats) (bl u v : ℕ) :
    (YarnM × LoopFloats) × Option PyErr :=
  if y.has_float u v then
    (({ y with edges := addToEdgeBack y.edges u v bl },
      f.add_loop_behind_float u v), none)
  else if y.has_float v u then
    (({ y with edges := addToEdgeBack y.edges v u bl },
      f.add_loop_behind_float v u), some .keyErr)
  else ((y, f), none)

/-! ### C7: argument-order sensitivity of the float accessors -/

/-- A two-loop yarn `0 → 1` whose single float edge is stored in the direction
`(0, 1)` with one front occupant and one back occupant. -/
def yarnTwoLoops : YarnM :=
  { nodes := [0, 1], edges := [⟨0, 1, {5}, {6}⟩], first := some 0, last := some 1 }

/-! ### C2: `Yarn.remove_loop` (spec-modelled)

`Knit_Graph.remove_loop` calls `yarn.remove_loop(loop)`, but `Yarn.py` as
shipped does not define `remove_loop`; only its caller is in the sources. -/

/-- Modelled from the spec: `Yarn.remove_loop` is not present in `Yarn.py`
(only its caller `Knit_Graph.remove_loop` is).  Per §4.2 it "splices the loop
out of the sequence chain, reconnecting its former predecessor directly to its
former successor, and re-anchors every float registration that had referenced
the removed loop as one of its two endpoints so it instead spans the new
adjacent pair, preserving the front/behind occupant sets"; per §8 the
re-anchoring must not lose any occupant, so the occupant sets of the two
incident floats are united on the new edge.  The first/last pointers move to
the former successor/predecessor when the removed loop held those roles. -/
def YarnM.removeLoop (y : YarnM) (l : ℕ) : YarnM :=
  let predE := y.edges.find? fun e => e.dst = l
  let succE := y.edges.find? fun e => e.src = l
  let keep := y.edges.filter fun e => e.src ≠ l ∧ e.dst ≠ l
  { nodes := y.nodes.erase l
    edges :=
      match predE, succE with
      | some pe, some se => keep ++ [⟨pe.src, se.dst, pe.front ∪ se.front, pe.back ∪ se.back⟩]
      | _, _ => keep
    first :=
      if y.first = some l then
        match succE with
        | some se => some se.dst
        | none => none
      else y.first
    last :=
      if y.last = some l then
        match predE with
        | some pe => some pe.src
        | none => none
      else y.last }

/-- A three-loop yarn `0 → 1 → 2` carrying floats on both edges. -/
def yarnThreeLoops : YarnM :=
  { nodes := [0, 1, 2]
    edges := [⟨0, 1, {5}, {6}⟩, ⟨1, 2, {7}, ∅⟩]
    first := some 0
    last := some 2 }

/-! ## The Wale embedding (`artin_wale_braids/Wale.py`)

A `Wale` holds a `networkx.DiGraph` (`stitches`) together with
`first_loop`/`last_loop` pointers.  The two constructors (`Wale(first_loop)`
plus `add_loop_to_end`/`add_loop_to_beginning`) only ever extend a simple path,
and iteration (`dfs_preorder_nodes` from `first_loop`) yields that path in
order, so the state is embedded as the path itself: the list of loops in chain
order and the list of pull directions on its consecutive edges. -/

/-- The state of one `Wale`: its loop chain (in stitch order) and the pull
direction stored on each consecutive edge (`dirs.length = chain.length - 1`
for every wale the source can build). -/
structure WaleM where
  chain : List ℕ := []
  dirs : List PullDir := []
deriving DecidableEq

/-- `Wale.last_loop` (the end of the path). -/
def WaleM.lastLoop (w : WaleM) : Option ℕ :=
  w.chain.getLast?

/-- `Wale.__init__(first_loop)`: a `Loop` argument is added as the single node
of the wale (via `add_loop_to_end(first_loop, None)`); `None` gives the empty
wale. -/
def WaleM.ofFirst : Option ℕ → WaleM
  | some a => { chain := [a], dirs := [] }
  | none => { chain := [], dirs := [] }

/-- `Wale.add_loop_to_end(loop, pull_direction)`: on an empty wale the loop
becomes the only node (and the direction argument is unused, matching the
`None` passed by the constructor); otherwise an edge from the previous last
loop tagged with the direction is appended. -/
def WaleM.add_loop_to_end (w : WaleM) (l : ℕ) (d : PullDir) : WaleM :=
  match w.chain with
  | [] => { chain := [l], dirs := [] }
  | _ => { chain := w.chain ++ [l], dirs := w.dirs ++ [d] }

/-- `stitches.edges[u, v]["pull_direction"]` on the path: walk the chain and
its edge directions looking for the consecutive pair `(u, v)`; `none` embeds
the `KeyError` on a missing edge. -/
def lookupDir : List ℕ → List PullDir → ℕ → ℕ → Option PullDir
  | a :: b :: cs, d :: ds, u, v =>
    if a = u ∧ b = v then some d else lookupDir (b :: cs) ds u v
  | _, _, _, _ => none

/-- `Wale.get_stitch_pull_direction(u, v)`. -/
def WaleM.get_stitch_pull_direction (w : WaleM) (u v : ℕ) : Option PullDir :=
  lookupDir w.chain w.dirs u v

/-- The loop body of `Wale.split_wale`: `fw` is `first_wale` and the third
argument is the second wale once the split loop has been found (`none` while
`growing_wale` is still `first_wale` and `found_loop` is false).  Every
direction is looked up in the original wale (`self.get_stitch_pull_direction`),
and a failed lookup, or a missing `last_loop` on the growing wale, raises a
`KeyError`.  On finding the split loop the loop is first appended to the
growing wale and a fresh wale seeded with the split loop then replaces it. -/
def splitGo (w : WaleM) (s : ℕ) :
    List ℕ → WaleM → Option WaleM → Except PyErr (WaleM × Option WaleM)
  | [], fw, sec => .ok (fw, sec)
  | l :: ls, fw, none =>
    match fw.lastLoop with
    | none => .error .keyErr
    | some u =>
      match w.get_stitch_pull_direction u l with
      | none => .error .keyErr
      | some d =>
        if l = s then
          splitGo w s ls (fw.add_loop_to_end l d) (some (WaleM.ofFirst (some s)))
        else splitGo w s ls (fw.add_loop_to_end l d) none
  | l :: ls, fw, some gw =>
    match gw.lastLoop with
    | none => .error .keyErr
    | some u =>
      match w.get_stitch_pull_direction u l with
      | none => .error .keyErr
      | some d =>
        if l = s then splitGo w s ls fw (some (WaleM.ofFirst (some s)))
        else splitGo w s ls fw (some (gw.add_loop_to_end l d))

/-- `Wale.split_wale(split_loop)`: replicate the chain from the second loop
onward into `first_wale` and (after the split loop is found) a second wale; if
the split loop was never found return the original wale and `None`. -/
def WaleM.split_wale (w : WaleM) (s : ℕ) : Except PyErr (WaleM × Option WaleM) :=
  match splitGo w s w.chain.tail (WaleM.ofFirst w.chain.head?) none with
  | .error e => .error e
  | .ok (_, none) => .ok (w, none)
  | .ok (fw, some gw) => .ok (fw, some gw)

/-! ## The Knit Graph embedding (`Knit_Graph.py`)

The state gathers the `stitch_graph` (nodes and pull-direction–tagged edges),
the per-loop `parent_loops` stacks (stored on the `Loop` objects in Python,
here as a map from loop id), the `_loop_ids` index, the `_last_loop` pointer,
the yarn set together with each yarn's state and each loop's owning yarn, and
the crossing ledger.  The `front_floats`/`back_floats` dictionaries each loop
mirrors privately are not part of this state: at graph level they are
write-only copies of the yarn-edge occupant sets and no graph operation reads
them back. -/

/-- The state of a `Knit_Graph` and of the loops and yarns it owns. -/
structure KG where
  nodes : List ℕ
  stitches : List (ℕ × ℕ × PullDir)
  parents : ℕ → List ℕ
  loopIds : List ℕ
  lastLoop : Option ℕ
  yarns : List ℕ
  yarnOf : ℕ → ℕ
  ystate : ℕ → YarnM
  braid : List (ℕ × ℕ)

/-- `Knit_Graph.__init__`: the empty graph. -/
def KG.emptyGraph : KG :=
  { nodes := []
    stitches := []
    parents := fun _ => []
    loopIds := []
    lastLoop := none
    yarns := []
    yarnOf := fun _ => 0
    ystate := fun _ => YarnM.empty
    braid := [] }

/-- `loop in knit_graph` for a `Loop` argument: `stitch_graph.has_node`. -/
def KG.containsLoop (g : KG) (l : ℕ) : Bool :=
  g.nodes.contains l

/-- `networkx` `add_edge(parent, child, pull_direction=d)` on the stitch graph:
an existing edge has its attribute overwritten. -/
def addStitch (es : List (ℕ × ℕ × PullDir)) (p c : ℕ) (d : PullDir) :
    List (ℕ × ℕ × PullDir) :=
  es.filter (fun e => ¬(e.1 = p ∧ e.2.1 = c)) ++ [(p, c, d)]

/-- `Knit_Graph.get_child_loop(loop)`: the first successor in the stitch
graph, or `None`. -/
def KG.get_child_loop (g : KG) (l : ℕ) : Option ℕ :=
  (g.stitches.find? (fun e => e.1 = l)).map (fun e => e.2.1)

/-- `Knit_Graph.has_child_loop(loop)`. -/
def KG.has_child_loop (g : KG) (l : ℕ) : Bool :=
  (g.get_child_loop l).isSome

/-- `Knit_Graph.is_terminal_loop(loop)`: no child loop. -/
def KG.is_terminal_loop (g : KG) (l : ℕ) : Bool :=
  !(g.has_child_loop l)

/-- `Knit_Graph.terminal_loops()`: the loops of the graph with no child, in
node order. -/
def KG.terminal_loops (g : KG) : List ℕ :=
  g.nodes.filter (fun l => !(g.has_child_loop l))

/-- Python `list.insert(i, x)` semantics, including clamping and negative
indices. -/
def pyInsert (xs : List ℕ) (i : ℤ) (x : ℕ) : List ℕ :=
  let j : ℕ := if i < 0 then (max ((xs.length : ℤ) + i) 0).toNat else min i.toNat xs.length
  xs.take j ++ [x] ++ xs.drop j

/-- `Loop.add_parent_loop(parent, stack_position)`: insert at the position, or
append on top of the stack when the position is `None`. -/
def addParentLoop (ps : List ℕ) (p : ℕ) (pos : Option ℤ) : List ℕ :=
  match pos with
  | none => ps ++ [p]
  | some i => pyInsert ps i p

/-- `Knit_Graph.connect_loops(parent, child, pull_direction, stack_position)`:
raises `KeyError` (before any mutation) when either endpoint is not in the
graph; otherwise adds the stitch edge and pushes the parent onto the child's
parent stack. -/
def KG.connect_loops (g : KG) (p c : ℕ) (d : PullDir) (pos : Option ℤ) :
    KG × Option PyErr :=
  if ¬ g.containsLoop p then (g, some .keyErr)
  else if ¬ g.containsLoop c then (g, some .keyErr)
  else
    ({ g with
        stitches := addStitch g.stitches p c d
        parents := updf g.parents c (addParentLoop (g.parents c) p pos) }, none)

/-- Insertion into an ascending list (helper for `sorted`). -/
def insertAsc (x : ℕ) : List ℕ → List ℕ
  | [] => [x]
  | y :: ys => if x ≤ y then x :: y :: ys else y :: insertAsc x ys

/-- Python `sorted` on loops (ordered by id). -/
def sortAsc : List ℕ → List ℕ
  | [] => []
  | x :: xs => insertAsc x (sortAsc xs)

/-- `Knit_Graph.sorted_loops()`: the stitch-graph nodes from earliest to
latest formed (ids ascending). -/
def KG.sorted_loops (g : KG) : List ℕ :=
  sortAsc g.nodes

/-- The loop body of `Knit_Graph.get_courses`: a `Course` is its
`loops_in_order` list (the `_loop_set` mirrors its membership); for each loop,
if any registered parent is already in the current course the course is sealed
and a fresh course is started before the loop is added, otherwise the loop is
appended; the final course is appended unconditionally.  (`Course.add_loop`'s
assertion can never fire here: a loop is only added to a course none of whose
members is its parent.) -/
def coursesGo (par : ℕ → List ℕ) : List ℕ → List (List ℕ) → List ℕ → List (List ℕ)
  | [], acc, cur => acc ++ [cur]
  | l :: ls, acc, cur =>
    if (par l).any (fun p => p ∈ cur) then coursesGo par ls (acc ++ [cur]) [l]
    else coursesGo par ls acc (cur ++ [l])

/-- `Knit_Graph.get_courses()`. -/
def KG.get_courses (g : KG) : List (List ℕ) :=
  coursesGo g.parents g.sorted_loops [] []

/-- The course-decomposition algorithm in the words of the specification
(amended): visit all loops in ascending id order, maintain a current course,
seal the current course and start a new one exactly when a visited loop has a
registered parent already in the current course, otherwise append the loop to
the current course; after the scan the final current course is appended
unconditionally. -/
def courseAlgSpec (par : ℕ → List ℕ) (loops : List ℕ) : List (List ℕ) :=
  let st := loops.foldl
    (fun (st : List (List ℕ) × List ℕ) l =>
      if (par l).any (fun p => p ∈ st.2) then (st.1 ++ [st.2], [l])
      else (st.1, st.2 ++ [l]))
    ([], [])
  st.1 ++ [st.2]

/-- `networkx` dict-key insertion for `_loop_ids`. -/
def addKey (ks : List ℕ) (l : ℕ) : List ℕ :=
  if l ∈ ks then ks else ks ++ [l]

/-- `Knit_Graph.add_loop(loop)`: registers the node and the loop-id index
entry, lazily adds the loop's yarn to the yarn set, and updates the last-loop
pointer by id comparison. -/
def KG.add_loop (g : KG) (l : ℕ) : KG :=
  let g1 := { g with nodes := addNode g.nodes l, loopIds := addKey g.loopIds l }
  let g2 :=
    if g1.yarns.contains (g1.yarnOf l) then g1
    else { g1 with yarns := g1.yarns ++ [g1.yarnOf l] }
  match g2.lastLoop with
  | none => { g2 with lastLoop := some l }
  | some m => if m < l then { g2 with lastLoop := some l } else g2

/-- `Yarn.make_loop_on_end()` for a yarn owned by this knit graph: the next
loop id is taken from the graph clock (`knit_graph.last_loop.loop_id + 1`, or
`0` on an empty graph), the fresh loop's yarn attribute is set, the loop is
appended to the end of the yarn (`add_loop_to_end` calls
`insert_loop(loop, self._last_loop)`), and the loop is registered in the knit
graph.  Returns the new state and the id of the new loop. -/
def KG.make_loop_on_end (g : KG) (y : ℕ) : KG × ℕ :=
  let lid := match g.lastLoop with | none => 0 | some m => m + 1
  let g1 := { g with yarnOf := updf g.yarnOf lid y }
  let g2 := { g1 with
    ystate := updf g1.ystate y ((g1.ystate y).insert_loop lid (g1.ystate y).last) }
  (g2.add_loop lid, lid)

/-- Modelled from the spec: `Loop.remove_loop_from_front_floats` and
`Loop.remove_loop_from_back_floats` are not present in `Loop.py` (only their
caller `Knit_Graph.remove_loop` is).  Per §4.3/§3 they remove the loop from
any floating positions, i.e. deregister it from the front/back occupant sets
of the floats on its yarn. -/
def removeFloatOccupant (ys : YarnM) (l : ℕ) : YarnM :=
  { ys with edges := ys.edges.map (fun e =>
      { e with front := e.front.erase l, back := e.back.erase l }) }

/-- Greatest element of a list (`max(...)` in Python, which raises
`ValueError` on an empty sequence — returned as `none` here and turned into
the error by the caller). -/
def listMax : List ℕ → Option ℕ
  | [] => none
  | x :: xs =>
    match listMax xs with
    | none => some x
    | some m => some (max x m)

/-- `Knit_Graph.remove_loop(loop)`, in source order: `KeyError` if the loop is
absent; otherwise (1) drop the loop's crossings from the crossing ledger
(`Loop_Braid_Graph.remove_loop`, modelled from the spec as its module is not
in the sources), (2) clear the loop's own parent links and, if it has a child,
remove it from that child's parent stack (`Loop.remove_parent_loops` /
`Loop.remove_parent`, modelled from the spec §4.3 as they are not in
`Loop.py`), (3) delete the stitch-graph node with its incident edges and the
loop-id index entry, (4) deregister the loop from float positions and remove
it from its yarn (spec-modelled, see `removeFloatOccupant` and
`YarnM.removeLoop`), (5) drop the yarn if now empty, and (6) recompute the
last-loop pointer when the removed loop held it: `None` (after asserting the
stitch graph is empty) when no yarns remain, otherwise the maximum of the
remaining yarns' last loops (`max` on an empty sequence raises
`ValueError`). -/
def KG.remove_loop (g : KG) (l : ℕ) : KG × Option PyErr :=
  if ¬ g.containsLoop l then (g, some .keyErr)
  else
    let g1 := { g with braid := g.braid.filter (fun pr => pr.1 ≠ l ∧ pr.2 ≠ l) }
    let g2 := { g1 with parents := updf g1.parents l [] }
    let g3 :=
      match g2.get_child_loop l with
      | some c => { g2 with parents := updf g2.parents c ((g2.parents c).erase l) }
      | none => g2
    let g4 := { g3 with
      nodes := g3.nodes.erase l
      stitches := g3.stitches.filter (fun e => e.1 ≠ l ∧ e.2.1 ≠ l) }
    let g5 := { g4 with loopIds := g4.loopIds.erase l }
    let y := g5.yarnOf l
    let g6 := { g5 with ystate := updf g5.ystate y (removeFloatOccupant (g5.ystate y) l) }
    let g7 := { g6 with ystate := updf g6.ystate y ((g6.ystate y).removeLoop l) }
    let g8 :=
      if ((g7.ystate y).nodes).length = 0 then { g7 with yarns := g7.yarns.erase y }
      else g7
    if g8.lastLoop = some l then
      if g8.yarns.length = 0 then
        if g8.nodes.length = 0 then ({ g8 with lastLoop := none }, none)
        else (g8, some .assertErr)
      else
        match listMax (g8.yarns.filterMap (fun yy => (g8.ystate yy).last)) with
        | some m => ({ g8 with lastLoop := some m }, none)
        | none => (g8, some .valueErr)
    else (g8, none)

/-- `Knit_Graph.get_wale_groups()` as shipped.  The comprehension
`{Wale_Group(terminal_loop, self) for terminal_loop in self.terminal_loops()}`
produces the empty set when the graph has no terminal loop; otherwise the
first `Wale_Group(terminal_loop, self)` call passes a `Loop` where
`Wale_Group.__init__(self, terminal_wale: Wale, knit_graph)` expects a `Wale`,
and `build_group_from_top_wale` → `add_wale` immediately evaluates
`len(wale)` on that `Loop`, which defines no `__len__`, raising `TypeError`
(likewise `get_wales_ending_with_loop` calls `Wale(last_loop, self)` although
`Wale.__init__(self, first_loop=None)` accepts a single positional argument,
also a `TypeError`).  So the call can never return a group. -/
def KG.get_wale_groups (g : KG) : Except PyErr (List ℕ) :=
  if g.terminal_loops.isEmpty then .ok [] else .error .typeErr

/-- A three-loop single-column graph `0 → 1 → 2` (stitch edges `(0,1)` and
`(1,2)`) on one yarn. -/
def chainKG : KG :=
  { nodes := [0, 1, 2]
    stitches := [(0, 1, .BtF), (1, 2, .BtF)]
    parents := fun n => if n = 1 then [0] else if n = 2 then [1] else []
    loopIds := [0, 1, 2]
    lastLoop := some 2
    yarns := [0]
    yarnOf := fun _ => 0
    ystate := fun yy =>
      if yy = 0 then
        { nodes := [0, 1, 2]
          edges := [⟨0, 1, ∅, ∅⟩, ⟨1, 2, ∅, ∅⟩]
          first := some 0
          last := some 2 }
      else YarnM.empty
    braid := [] }

/-! ### C4: `get_wale_groups` as shipped cannot return a group -/

/-- A single-loop graph (one cast-on loop on one yarn). -/
def singleLoopKG : KG :=
  { nodes := [0]
    stitches := []
    parents := fun _ => []
    loopIds := [0]
    lastLoop := some 0
    yarns := [0]
    yarnOf := fun _ => 0
    ystate := fun yy =>
      if yy = 0 then { nodes := [0], edges := [], first := some 0, last := some 0 }
      else YarnM.empty
    braid := [] }

/-- The chain `0 → 1 → 2` extended with a second parent `3` of loop `2`
(stitch edge `(3, 2)`): loop `1` still has exactly one parent `0` and exactly
one child `2`. -/
def cxKG : KG :=
  { nodes := [0, 1, 2, 3]
    stitches := [(0, 1, .BtF), (1, 2, .BtF), (3, 2, .BtF)]
    parents := fun n => if n = 1 then [0] else if n = 2 then [1, 3] else []
    loopIds := [0, 1, 2, 3]
    lastLoop := some 3
    yarns := [0]
    yarnOf := fun _ => 0
    ystate := fun yy =>
      if yy = 0 then
        { nodes := [0, 1, 2, 3]
          edges := [⟨0, 1, ∅, ∅⟩, ⟨1, 2, ∅, ∅⟩, ⟨2, 3, ∅, ∅⟩]
          first := some 0
          last := some 3 }
      else YarnM.empty
    braid := [] }

/-! ### C5: the last-loop pointer invariant

The invariant is proved for every graph reachable through the engine's own
mutation protocol: loop creation/insertion at the end of a yarn
(`Yarn.make_loop_on_end`, the spec's only loop-creation path, which calls
`insert_loop`), stitch connection (`connect_loops`), and removal
(`remove_loop`). -/

/-- The consecutive pairs of a list: the directed edges of the path it
spells. -/
def zipConsec (c : List ℕ) : List (ℕ × ℕ) :=
  c.zip c.tail

/-- The shape every yarn reachable through the engine maintains: its node list
is the loop chain in creation order with strictly increasing ids, the
first/last pointers frame it, and the sequence edges are exactly the
consecutive pairs of the chain. -/
structure YarnInv (ys : YarnM) : Prop where
  chain : List.Chain' (· < ·) ys.nodes
  first_eq : ys.first = ys.nodes.head?
  last_eq : ys.last = ys.nodes.getLast?
  edges_perm : (ys.edges.map fun e => (e.src, e.dst)).Perm (zipConsec ys.nodes)

/-- The knit-graph invariant maintained by the mutation protocol: the
last-loop pointer is the maximum id among present loops (or `none` on the
empty graph), node and yarn lists are duplicate-free, every registered yarn is
non-empty and chain-shaped (`YarnInv`), yarn membership and the per-loop yarn
attribute agree, and unregistered yarns are empty. -/
structure KGInv (g : KG) : Prop where
  lastOK :
    match g.lastLoop with
    | none => g.nodes = []
    | some m => m ∈ g.nodes ∧ ∀ x ∈ g.nodes, x ≤ m
  nodesNodup : g.nodes.Nodup
  yarnsNodup : g.yarns.Nodup
  yarnInv : ∀ y ∈ g.yarns, YarnInv (g.ystate y)
  yarnNE : ∀ y ∈ g.yarns, (g.ystate y).nodes ≠ []
  own : ∀ y ∈ g.yarns, ∀ l ∈ (g.ystate y).nodes, g.yarnOf l = y ∧ l ∈ g.nodes
  cover : ∀ l ∈ g.nodes, g.yarnOf l ∈ g.yarns ∧ l ∈ (g.ystate (g.yarnOf l)).nodes
  offYarn : ∀ y, y ∉ g.yarns → g.ystate y = YarnM.empty

/-- The graph states reachable through the engine's own mutation protocol,
starting from the empty graph: creating a loop at the end of a yarn,
connecting two loops, and removing a loop. -/
inductive Reach : KG → Prop where
  | init : Reach KG.emptyGraph
  | make (g : KG) (y : ℕ) : Reach g → Reach (g.make_loop_on_end y).1
  | connect (g : KG) (p c : ℕ) (d : PullDir) (pos : Option ℤ) :
      Reach g → Reach (g.connect_loops p c d pos).1
  | remove (g : KG) (l : ℕ) : Reach g → Reach (g.remove_loop l).1

/-- The state produced by the body of `Knit_Graph.remove_loop` before the
last-loop recomputation, written with every record projection resolved (see
`remove_loop_eq`). -/
def removeLoopBase (g : KG) (l : ℕ) : KG :=
  let y := g.yarnOf l
  let ys2 := (removeFloatOccupant (g.ystate y) l).removeLoop l
  { nodes := g.nodes.erase l
    stitches := g.stitches.filter (fun e => e.1 ≠ l ∧ e.2.1 ≠ l)
    parents :=
      match g.get_child_loop l with
      | some c => updf (updf g.parents l []) c ((updf g.parents l [] c).erase l)
      | none => updf g.parents l []
    loopIds := g.loopIds.erase l
    lastLoop := g.lastLoop
    yarns := if ys2.nodes.length = 0 then g.yarns.erase y else g.yarns
    yarnOf := g.yarnOf
    ystate := updf (updf g.ystate y (removeFloatOccupant (g.ystate y) l)) y ys2
    braid := g.braid.filter (fun pr => pr.1 ≠ l ∧ pr.2 ≠ l) }

/-- Two loops (ids `0` and `1`) knit on yarn `0` of the empty graph. -/
def kgTwo : KG := ((KG.emptyGraph.make_loop_on_end 0).1.make_loop_on_end 0).1

theorem updf_same {α : Type} (f : ℕ → α) (k : ℕ) (v : α) : updf f k v k = v := by
  simp [updf]

theorem updf_other {α : Type} (f : ℕ → α) (k x : ℕ) (v : α) (h : x ≠ k) :
    updf f k v x = f x := by
  simp [updf, h]

/-! ### C9: loop-id non-negativity -/

/-- **C9.** Constructing a `_Base_Loop` with a negative id is rejected at
creation time with an `AssertionError`, and construction with a non-negative
id succeeds (storing the id). -/
theorem C9_loop_id_nonneg (i : ℤ) :
    (i < 0 → baseLoopInit i = .error .assertErr) ∧
    (0 ≤ i → baseLoopInit i = .ok i) := by
  constructor
  · intro h
    simp [baseLoopInit, h]
  · intro h
    simp [baseLoopInit, not_lt.mpr h]

/-- Witness for C9 at the concrete ids `-1` and `5`. -/
theorem C9_loop_id_nonneg_witness :
    baseLoopInit (-1) = .error .assertErr ∧ baseLoopInit 5 = .ok 5 :=
  ⟨(C9_loop_id_nonneg (-1)).1 (by decide), (C9_loop_id_nonneg 5).2 (by decide)⟩

/-- **C7 counterexample.** On a yarn with a float recorded between loops `0`
and `1` (stored in the direction `(0, 1)`), `has_float` is not argument-order
insensitive: `has_float(0, 1)` is true but `has_float(1, 0)` is false. -/
theorem C7_has_float_not_symm_cex :
    yarnTwoLoops.has_float 0 1 = true ∧ yarnTwoLoops.has_float 1 0 = false := by
  decide

/-- **C7 (amended).** For every yarn and every pair of loops whose float edge
is stored in at most one direction (as is the case for every yarn built by
`insert_loop`, which adds each sequence edge in one direction only),
`get_loops_in_front_of_float` and `get_loops_behind_float` are argument-order
insensitive, because they check both argument orders; `has_float` checks only
the stored direction, so it is order-insensitive only in the sense that some
order of arguments finds the recorded float. -/
theorem C7_float_accessors_symm (y : YarnM) (u v : ℕ)
    (h : ¬(y.has_float u v = true ∧ y.has_float v u = true)) :
    y.get_loops_in_front_of_float u v = y.get_loops_in_front_of_float v u ∧
    y.get_loops_behind_float u v = y.get_loops_behind_float v u := by
  by_cases huv : y.has_float u v = true
  · have hvu : ¬(y.has_float v u = true) := fun hc => h ⟨huv, hc⟩
    constructor
    · simp [YarnM.get_loops_in_front_of_float, huv, hvu]
    · simp [YarnM.get_loops_behind_float, huv, hvu]
  · constructor
    · simp [YarnM.get_loops_in_front_of_float, huv]
    · simp [YarnM.get_loops_behind_float, huv]

/-- Witness for the amended C7 on the concrete two-loop yarn. -/
theorem C7_float_accessors_symm_witness :
    yarnTwoLoops.get_loops_in_front_of_float 0 1 =
      yarnTwoLoops.get_loops_in_front_of_float 1 0 ∧
    yarnTwoLoops.get_loops_behind_float 0 1 =
      yarnTwoLoops.get_loops_behind_float 1 0 :=
  C7_float_accessors_symm yarnTwoLoops 0 1 (by decide)

/-! ### C10: float registration with no recorded float is a no-op -/

/-- **C10.** For every yarn and loops `f`, `u`, `v` such that the yarn's
sequence graph has no float edge between `u` and `v` in either direction,
`add_loop_in_front_of_float(f, u, v)` and `add_loop_behind_float(f, u, v)`
return without raising and record nothing: the yarn's edge data and `f`'s own
float dictionaries are unchanged. -/
theorem C10_no_float_noop (y : YarnM) (f : LoopFloats) (fl u v : ℕ)
    (huv : y.has_float u v = false) (hvu : y.has_float v u = false) :
    y.add_loop_in_front_of_float f fl u v = ((y, f), none) ∧
    y.add_loop_behind_float f fl u v = ((y, f), none) := by
  constructor
  · simp [YarnM.add_loop_in_front_of_float, huv, hvu]
  · simp [YarnM.add_loop_behind_float, huv, hvu]

/-- Witness for C10: on the two-loop yarn there is no float between loops `0`
and `5`, and registration attempts leave every structure unchanged. -/
theorem C10_no_float_noop_witness :
    yarnTwoLoops.add_loop_in_front_of_float {} 9 0 5 = ((yarnTwoLoops, {}), none) ∧
    yarnTwoLoops.add_loop_behind_float {} 9 0 5 = ((yarnTwoLoops, {}), none) :=
  C10_no_float_noop yarnTwoLoops {} 9 0 5 (by decide) (by decide)

theorem find?_append_of_left_none {α : Type} {p : α → Bool} :
    ∀ {l1 : List α} (l2 : List α), (∀ a ∈ l1, ¬ p a = true) →
      List.find? p (l1 ++ l2) = List.find? p l2 := by
  intro l1
  induction l1 with
  | nil => intro l2 _; rfl
  | cons a t ih =>
    intro l2 h
    have ha : ¬ p a = true := h a (by simp)
    rw [List.cons_append, List.find?_cons_of_neg _ ha]
    exact ih l2 fun x hx => h x (by simp [hx])

theorem find?_append_of_right_none {α : Type} {p : α → Bool} :
    ∀ {l1 : List α} (l2 : List α), (∀ a ∈ l2, ¬ p a = true) →
      List.find? p (l1 ++ l2) = List.find? p l1 := by
  intro l1
  induction l1 with
  | nil =>
    intro l2 h
    rw [List.nil_append, List.find?_nil]
    exact List.find?_eq_none.mpr fun x hx => h x hx
  | cons a t ih =>
    intro l2 h
    by_cases ha : p a = true
    · rw [List.cons_append, List.find?_cons_of_pos _ ha, List.find?_cons_of_pos _ ha]
    · rw [List.cons_append, List.find?_cons_of_neg _ ha, List.find?_cons_of_neg _ ha]
      exact ih l2 h

theorem find?_filter_eq {α : Type} {p q : α → Bool} :
    ∀ {l : List α}, (∀ a ∈ l, p a = true → q a = true) →
      List.find? p (l.filter q) = List.find? p l := by
  intro l
  induction l with
  | nil => intro _; rfl
  | cons a t ih =>
    intro h
    have ht : ∀ x ∈ t, p x = true → q x = true := fun x hx => h x (by simp [hx])
    by_cases hq : q a = true
    · rw [List.filter_cons_of_pos hq]
      by_cases hp : p a = true
      · rw [List.find?_cons_of_pos _ hp, List.find?_cons_of_pos _ hp]
      · rw [List.find?_cons_of_neg _ hp, List.find?_cons_of_neg _ hp]
        exact ih ht
    · have hp : ¬ p a = true := fun hpa => hq (h a (by simp) hpa)
      rw [List.filter_cons_of_neg hq, List.find?_cons_of_neg _ hp]
      exact ih ht

theorem any_filter_eq {α : Type} {p q : α → Bool} :
    ∀ {l : List α}, (∀ a ∈ l, p a = true → q a = true) →
      (l.filter q).any p = l.any p := by
  intro l
  induction l with
  | nil => intro _; rfl
  | cons a t ih =>
    intro h
    have ht : ∀ x ∈ t, p x = true → q x = true := fun x hx => h x (by simp [hx])
    by_cases hq : q a = true
    · rw [List.filter_cons_of_pos hq, List.any_cons, List.any_cons, ih ht]
    · have hp : ¬ p a = true := fun hpa => hq (h a (by simp) hpa)
      rw [List.filter_cons_of_neg hq, List.any_cons, Bool.eq_false_iff.mpr hp,
        Bool.false_or]
      exact ih ht

/-- **C2 (spec-modelled).** For a yarn on which loop `l` has predecessor `p`
(with float occupants `F1`/`B1` on the `p → l` edge) and successor `s` (with
occupants `F2`/`B2` on the `l → s` edge), `Yarn.remove_loop(l)` splices `l` out
of the sequence chain: `l` is removed from the node set, no float edge touches
`l` any more, the former predecessor is reconnected directly to the former
successor, every front/behind occupant of the two floats through `l` is
re-anchored onto the new adjacent pair `(p, s)` with no occupant lost, floats
between other pairs are untouched, and the first/last pointers (which `l` did
not hold) are unchanged. -/
theorem C2_yarn_remove_loop_splices (y : YarnM) (l p s : ℕ)
    (F1 B1 F2 B2 : Finset ℕ)
    (hpred : y.edges.find? (fun e => e.dst = l) = some ⟨p, l, F1, B1⟩)
    (hsucc : y.edges.find? (fun e => e.src = l) = some ⟨l, s, F2, B2⟩)
    (hps : ∀ e ∈ y.edges, ¬(e.src = p ∧ e.dst = s))
    (hpl : p ≠ l) (hsl : s ≠ l) (hfirst : y.first ≠ some l) (hlast : y.last ≠ some l) :
    (y.removeLoop l).nodes = y.nodes.erase l ∧
    (y.removeLoop l).has_float p s = true ∧
    (∀ w, (y.removeLoop l).has_float l w = false ∧ (y.removeLoop l).has_float w l = false) ∧
    (y.removeLoop l).get_loops_in_front_of_float p s = F1 ∪ F2 ∧
    (y.removeLoop l).get_loops_behind_float p s = B1 ∪ B2 ∧
    (∀ u v, u ≠ l → v ≠ l → ¬(u = p ∧ v = s) → ¬(u = s ∧ v = p) →
      (y.removeLoop l).get_loops_in_front_of_float u v =
        y.get_loops_in_front_of_float u v ∧
      (y.removeLoop l).get_loops_behind_float u v =
        y.get_loops_behind_float u v) ∧
    (y.removeLoop l).first = y.first ∧ (y.removeLoop l).last = y.last := by
  have hkeep : ∀ e ∈ y.edges.filter (fun e => e.src ≠ l ∧ e.dst ≠ l),
      e.src ≠ l ∧ e.dst ≠ l := by
    intro e he
    have := List.of_mem_filter he
    simpa using this
  have hedges : (y.removeLoop l).edges =
      y.edges.filter (fun e => e.src ≠ l ∧ e.dst ≠ l) ++
        [⟨p, s, F1 ∪ F2, B1 ∪ B2⟩] := by
    simp [YarnM.removeLoop, hpred, hsucc]
  have hhfps : (y.removeLoop l).has_float p s = true := by
    simp only [YarnM.has_float, YarnM.hasEdge, hedges, List.any_append]
    simp
  have hgetps : (y.removeLoop l).getEdge p s = some ⟨p, s, F1 ∪ F2, B1 ∪ B2⟩ := by
    simp only [YarnM.getEdge, hedges]
    rw [find?_append_of_left_none]
    · simp
    · intro e he
      have hm := List.mem_of_mem_filter he
      have := hps e hm
      simp only [decide_eq_true_eq]
      exact this
  have hhf : ∀ a b, a ≠ l → b ≠ l → ¬(a = p ∧ b = s) →
      (y.removeLoop l).has_float a b = y.has_float a b := by
    intro a b ha hb hab
    simp only [YarnM.has_float, YarnM.hasEdge, hedges, List.any_append]
    have hnew : [YEdge.mk p s (F1 ∪ F2) (B1 ∪ B2)].any
        (fun e => decide (e.src = a ∧ e.dst = b)) = false := by
      simp only [List.any_cons, List.any_nil, Bool.or_false]
      simp only [decide_eq_false_iff_not]
      intro hc
      exact hab ⟨hc.1.symm, hc.2.symm⟩
    rw [hnew, Bool.or_false]
    apply any_filter_eq
    intro e he hpe
    simp only [decide_eq_true_eq] at hpe
    simp only [decide_eq_true_eq]
    exact ⟨hpe.1 ▸ ha, hpe.2 ▸ hb⟩
  have hge : ∀ a b, a ≠ l → b ≠ l → ¬(a = p ∧ b = s) →
      (y.removeLoop l).getEdge a b = y.getEdge a b := by
    intro a b ha hb hab
    simp only [YarnM.getEdge, hedges]
    rw [find?_append_of_right_none]
    · apply find?_filter_eq
      intro e he hpe
      simp only [decide_eq_true_eq] at hpe
      simp only [decide_eq_true_eq]
      exact ⟨hpe.1 ▸ ha, hpe.2 ▸ hb⟩
    · intro e he
      simp only [List.mem_singleton] at he
      subst he
      simp only [decide_eq_true_eq]
      intro hc
      exact hab ⟨hc.1.symm, hc.2.symm⟩
  refine ⟨rfl, hhfps, ?_, ?_, ?_, ?_, ?_, ?_⟩
  · intro w
    constructor
    · simp only [YarnM.has_float, YarnM.hasEdge, hedges, List.any_append]
      simp only [Bool.or_eq_false_iff]
      constructor
      · rw [List.any_eq_false]
        intro e he
        have := hkeep e he
        simp [this.1]
      · simp [hpl]
    · simp only [YarnM.has_float, YarnM.hasEdge, hedges, List.any_append]
      simp only [Bool.or_eq_false_iff]
      constructor
      · rw [List.any_eq_false]
        intro e he
        have := hkeep e he
        simp [this.2]
      · simp [hsl]
  · simp [YarnM.get_loops_in_front_of_float, hhfps, hgetps]
  · simp [YarnM.get_loops_behind_float, hhfps, hgetps]
  · intro u v hu hv hups husp
    have hvu : ¬(v = p ∧ u = s) := fun hc => husp ⟨hc.2, hc.1⟩
    have h1 := hhf u v hu hv hups
    have h2 := hhf v u hv hu hvu
    have g1 := hge u v hu hv hups
    have g2 := hge v u hv hu hvu
    constructor
    · simp only [YarnM.get_loops_in_front_of_float, h1, h2, g1, g2]
    · simp only [YarnM.get_loops_behind_float, h1, h2, g1, g2]
  · simp [YarnM.removeLoop, hfirst]
  · simp [YarnM.removeLoop, hlast]

/-- Witness for C2: removing the middle loop `1` of the three-loop yarn. -/
theorem C2_yarn_remove_loop_splices_witness :
    (yarnThreeLoops.removeLoop 1).nodes = yarnThreeLoops.nodes.erase 1 ∧
    (yarnThreeLoops.removeLoop 1).has_float 0 2 = true ∧
    (∀ w, (yarnThreeLoops.removeLoop 1).has_float 1 w = false ∧
      (yarnThreeLoops.removeLoop 1).has_float w 1 = false) ∧
    (yarnThreeLoops.removeLoop 1).get_loops_in_front_of_float 0 2 = {5} ∪ {7} ∧
    (yarnThreeLoops.removeLoop 1).get_loops_behind_float 0 2 = {6} ∪ ∅ ∧
    (∀ u v, u ≠ 1 → v ≠ 1 → ¬(u = 0 ∧ v = 2) → ¬(u = 2 ∧ v = 0) →
      (yarnThreeLoops.removeLoop 1).get_loops_in_front_of_float u v =
        yarnThreeLoops.get_loops_in_front_of_float u v ∧
      (yarnThreeLoops.removeLoop 1).get_loops_behind_float u v =
        yarnThreeLoops.get_loops_behind_float u v) ∧
    (yarnThreeLoops.removeLoop 1).first = yarnThreeLoops.first ∧
    (yarnThreeLoops.removeLoop 1).last = yarnThreeLoops.last :=
  C2_yarn_remove_loop_splices yarnThreeLoops 1 0 2 {5} {6} {7} ∅
    (by decide) (by decide) (by decide)
    (by decide) (by decide) (by decide) (by decide)

theorem lookupDir_some :
    ∀ (c1 : List ℕ) (u v : ℕ) (c2 : List ℕ) (ds : List PullDir),
      (c1 ++ u :: v :: c2).length = ds.length + 1 →
      ∃ d, lookupDir (c1 ++ u :: v :: c2) ds u v = some d := by
  intro c1
  induction c1 with
  | nil =>
    intro u v c2 ds hlen
    match ds with
    | [] => simp at hlen
    | d :: ds' =>
      refine ⟨d, ?_⟩
      simp [lookupDir]
  | cons a t ih =>
    intro u v c2 ds hlen
    have htail : (t ++ u :: v :: c2).length = ds.length - 1 + 1 := by
      simp only [List.cons_append, List.length_cons] at hlen
      simp only [List.length_append, List.length_cons] at hlen ⊢
      omega
    match ds with
    | [] =>
      exfalso
      simp only [List.cons_append, List.length_cons, List.length_append,
        List.length_nil] at hlen
      omega
    | d :: ds' =>
      have hne : t ++ u :: v :: c2 ≠ [] := by simp
      match hm : t ++ u :: v :: c2 with
      | [] => exact absurd hm hne
      | b :: cs =>
        by_cases hmatch : a = u ∧ b = v
        · refine ⟨d, ?_⟩
          rw [List.cons_append, hm]
          simp [lookupDir, hmatch]
        · obtain ⟨d', hd'⟩ := ih u v c2 ds' (by
            rw [← hm] at *
            simp only [List.length_cons] at htail ⊢
            omega)
          refine ⟨d', ?_⟩
          rw [List.cons_append, hm]
          simp only [lookupDir, if_neg hmatch]
          rw [← hm]
          exact hd'

theorem splitGo_no_split (w : WaleM) (s : ℕ)
    (hwf : w.chain.length = w.dirs.length + 1) :
    ∀ (rest pre : List ℕ) (fwd : List PullDir), pre ≠ [] →
      w.chain = pre ++ rest → s ∉ rest →
      ∃ fw', splitGo w s rest ⟨pre, fwd⟩ none = .ok (fw', none) := by
  intro rest
  induction rest with
  | nil =>
    intro pre fwd _ _ _
    exact ⟨⟨pre, fwd⟩, rfl⟩
  | cons l ls ih =>
    intro pre fwd hpre hchain hs
    have hlast : WaleM.lastLoop ⟨pre, fwd⟩ = some (pre.getLast hpre) := by
      simp [WaleM.lastLoop, List.getLast?_eq_getLast pre hpre]
    have hsplit : w.chain = pre.dropLast ++ pre.getLast hpre :: l :: ls := by
      rw [hchain]
      conv_lhs => rw [← List.dropLast_append_getLast hpre]
      simp
    obtain ⟨d, hd⟩ := lookupDir_some pre.dropLast (pre.getLast hpre) l ls w.dirs (by
      rw [← hsplit]; exact hwf)
    have hlook : w.get_stitch_pull_direction (pre.getLast hpre) l = some d := by
      rw [WaleM.get_stitch_pull_direction, hsplit]
      exact hd
    have hls : l ≠ s := fun h => hs (by simp [h])
    have hadd : WaleM.add_loop_to_end ⟨pre, fwd⟩ l d = ⟨pre ++ [l], fwd ++ [d]⟩ := by
      match pre, hpre with
      | a :: t, _ => rfl
    obtain ⟨fw', hfw'⟩ := ih (pre ++ [l]) (fwd ++ [d]) (by simp)
      (by rw [hchain]; simp) (fun hmem => hs (by simp [hmem]))
    refine ⟨fw', ?_⟩
    rw [splitGo, hlast]
    simp only [hlook, if_neg hls, hadd]
    exact hfw'

/-- **C6.** `split_wale` behaves as specified in the two split scenarios: for
every wale with loop chain `[a, b, c, d]` (loops distinct, pull directions
`d1, d2, d3` on its edges), `split_wale(c)` returns a first wale with chain
`[a, b, c]` retaining directions `d1, d2` and a second wale `[c, d]` retaining
direction `d3`; and for every (path-consistent) wale and every loop not in its
chain, `split_wale` returns the original wale unchanged and no second wale. -/
theorem C6_split_wale :
    (∀ (a b c d : ℕ) (d1 d2 d3 : PullDir),
      a ≠ b → a ≠ c → a ≠ d → b ≠ c → b ≠ d → c ≠ d →
      WaleM.split_wale ⟨[a, b, c, d], [d1, d2, d3]⟩ c =
        .ok (⟨[a, b, c], [d1, d2]⟩, some ⟨[c, d], [d3]⟩)) ∧
    (∀ (w : WaleM) (s : ℕ), w.chain.length = w.dirs.length + 1 → s ∉ w.chain →
      w.split_wale s = .ok (w, none)) := by
  constructor
  · intro a b c d d1 d2 d3 hab hac had hbc hbd hcd
    simp [WaleM.split_wale, splitGo, lookupDir, WaleM.ofFirst,
      WaleM.add_loop_to_end, WaleM.lastLoop, WaleM.get_stitch_pull_direction,
      hab, hac, had, hbc, hbd, hcd, Ne.symm hab, Ne.symm hac, Ne.symm had,
      Ne.symm hbc, Ne.symm hbd, Ne.symm hcd]
  · intro w s hwf hs
    match hc : w.chain with
    | [] => simp [hc] at hwf
    | p0 :: rest =>
      have hs' : s ∉ rest := fun hmem => hs (by rw [hc]; simp [hmem])
      obtain ⟨fw', hfw'⟩ := splitGo_no_split w s hwf rest [p0] []
        (by simp) (by rw [hc]; rfl) hs'
      simp only [WaleM.split_wale, hc, List.tail_cons, List.head?_cons, WaleM.ofFirst]
      rw [hfw']

/-- Witness for C6: the concrete wale `[0, 1, 2, 3]` split at `2`, and a wale
split at an absent loop. -/
theorem C6_split_wale_witness :
    WaleM.split_wale ⟨[0, 1, 2, 3], [.BtF, .FtB, .BtF]⟩ 2 =
      .ok (⟨[0, 1, 2], [.BtF, .FtB]⟩, some ⟨[2, 3], [.BtF]⟩) ∧
    WaleM.split_wale ⟨[0, 1], [.BtF]⟩ 7 = .ok (⟨[0, 1], [.BtF]⟩, none) :=
  ⟨C6_split_wale.1 0 1 2 3 .BtF .FtB .BtF (by decide) (by decide) (by decide)
      (by decide) (by decide) (by decide),
    C6_split_wale.2 ⟨[0, 1], [.BtF]⟩ 7 (by decide) (by decide)⟩

/-! ### C8: `connect_loops` validates before mutating -/

/-- **C8.** `connect_loops(parent, child, pull_direction, stack_position)`
raises a `KeyError` (a lookup error) if and only if at least one of the two
loops is absent from the graph; in the error case the graph is left exactly in
its pre-call state; otherwise no error is raised, the stitch edge tagged with
the pull direction is added, and the parent is inserted into the child's
parent stack at the given position (on top of the stack when the position is
unspecified), with no other state change. -/
theorem C8_connect_loops (g : KG) (p c : ℕ) (d : PullDir) (pos : Option ℤ) :
    ((g.connect_loops p c d pos).2 = some .keyErr ↔
      (g.containsLoop p = false ∨ g.containsLoop c = false)) ∧
    ((g.containsLoop p = false ∨ g.containsLoop c = false) →
      (g.connect_loops p c d pos).1 = g) ∧
    (g.containsLoop p = true → g.containsLoop c = true →
      (g.connect_loops p c d pos).2 = none ∧
      (g.connect_loops p c d pos).1 =
        { g with
            stitches := addStitch g.stitches p c d
            parents := updf g.parents c (addParentLoop (g.parents c) p pos) }) := by
  cases hp : g.containsLoop p
  · refine ⟨?_, ?_, ?_⟩ <;> simp [KG.connect_loops, hp]
  · cases hc : g.containsLoop c
    · refine ⟨?_, ?_, ?_⟩ <;> simp [KG.connect_loops, hp, hc]
    · refine ⟨?_, ?_, ?_⟩ <;> simp [KG.connect_loops, hp, hc]

/-- Witness for C8: on the three-loop chain graph, connecting present loops
`0` and `2` succeeds with the described state, and connecting the absent loop
`7` raises a `KeyError` leaving the graph unchanged. -/
theorem C8_connect_loops_witness :
    (chainKG.connect_loops 0 2 .FtB none).2 = none ∧
    (chainKG.connect_loops 0 2 .FtB none).1 =
      { chainKG with
          stitches := addStitch chainKG.stitches 0 2 .FtB
          parents := updf chainKG.parents 2 (addParentLoop (chainKG.parents 2) 0 none) } ∧
    (chainKG.connect_loops 7 2 .BtF none).2 = some .keyErr ∧
    (chainKG.connect_loops 7 2 .BtF none).1 = chainKG := by
  refine ⟨?_, ?_, ?_, ?_⟩
  · exact ((C8_connect_loops chainKG 0 2 .FtB none).2.2 (by decide) (by decide)).1
  · exact ((C8_connect_loops chainKG 0 2 .FtB none).2.2 (by decide) (by decide)).2
  · exact (C8_connect_loops chainKG 7 2 .BtF none).1.mpr (Or.inl (by decide))
  · exact (C8_connect_loops chainKG 7 2 .BtF none).2.1 (Or.inl (by decide))

/-- **C4 (code bug).** On every graph with at least one terminal loop —
including every flat swatch and every tube — `get_wale_groups()` raises
`TypeError` instead of returning one wale group per terminal loop:
`Wale_Group.__init__` expects a `Wale` as its first argument but receives the
terminal `Loop`, and `get_wales_ending_with_loop` calls `Wale(loop, self)`
although `Wale.__init__` accepts only one positional argument.  The claimed
cardinality (w groups for a flat swatch of width w, 2w for a tube of
circumference w) is what the repository's own tests
(`test_wale_count`, `test_tube_in_round`) assert. -/
theorem C4_get_wale_groups_raises (g : KG) (h : g.terminal_loops ≠ []) :
    g.get_wale_groups = .error .typeErr := by
  have : g.terminal_loops.isEmpty = false := by
    cases hte : g.terminal_loops
    · exact absurd hte h
    · rfl
  simp [KG.get_wale_groups, this]

/-- Witness for C4: the single-loop graph has a terminal loop, and
`get_wale_groups` raises on it. -/
theorem C4_get_wale_groups_raises_witness :
    singleLoopKG.get_wale_groups = .error .typeErr :=
  C4_get_wale_groups_raises singleLoopKG (by decide)

/-! ### C3: course decomposition -/

theorem coursesGo_eq_fold (par : ℕ → List ℕ) :
    ∀ (ls : List ℕ) (acc : List (List ℕ)) (cur : List ℕ),
      coursesGo par ls acc cur =
        (ls.foldl
          (fun (st : List (List ℕ) × List ℕ) l =>
            if (par l).any (fun p => p ∈ st.2) then (st.1 ++ [st.2], [l])
            else (st.1, st.2 ++ [l]))
          (acc, cur)).1 ++
        [(ls.foldl
          (fun (st : List (List ℕ) × List ℕ) l =>
            if (par l).any (fun p => p ∈ st.2) then (st.1 ++ [st.2], [l])
            else (st.1, st.2 ++ [l]))
          (acc, cur)).2] := by
  intro ls
  induction ls with
  | nil => intro acc cur; rfl
  | cons l t ih =>
    intro acc cur
    rw [coursesGo, List.foldl_cons]
    dsimp only
    by_cases h : (par l).any (fun p => p ∈ cur) = true
    · rw [if_pos h, if_pos h]
      exact ih (acc ++ [cur]) [l]
    · rw [if_neg h, if_neg h]
      exact ih acc (cur ++ [l])

theorem coursesGo_flatten (par : ℕ → List ℕ) :
    ∀ (ls : List ℕ) (acc : List (List ℕ)) (cur : List ℕ),
      (coursesGo par ls acc cur).flatten = acc.flatten ++ cur ++ ls := by
  intro ls
  induction ls with
  | nil =>
    intro acc cur
    simp [coursesGo]
  | cons l t ih =>
    intro acc cur
    rw [coursesGo]
    by_cases h : (par l).any (fun p => p ∈ cur) = true
    · rw [if_pos h, ih]
      simp
    · rw [if_neg h, ih]
      simp

theorem coursesGo_ne_nil (par : ℕ → List ℕ) :
    ∀ (ls : List ℕ) (acc : List (List ℕ)) (cur : List ℕ),
      cur ≠ [] → (∀ co ∈ acc, co ≠ []) →
      ∀ co ∈ coursesGo par ls acc cur, co ≠ [] := by
  intro ls
  induction ls with
  | nil =>
    intro acc cur hcur hacc co hco
    rw [coursesGo] at hco
    rcases List.mem_append.mp hco with h | h
    · exact hacc co h
    · rw [List.mem_singleton] at h
      rw [h]; exact hcur
  | cons l t ih =>
    intro acc cur hcur hacc co hco
    rw [coursesGo] at hco
    by_cases h : (par l).any (fun p => p ∈ cur) = true
    · rw [if_pos h] at hco
      refine ih (acc ++ [cur]) [l] (by simp) ?_ co hco
      intro x hx
      rcases List.mem_append.mp hx with h' | h'
      · exact hacc x h'
      · rw [List.mem_singleton] at h'
        rw [h']; exact hcur
    · rw [if_neg h] at hco
      exact ih acc (cur ++ [l]) (by simp) hacc co hco

theorem insertAsc_ne_nil (x : ℕ) (l : List ℕ) : insertAsc x l ≠ [] := by
  cases l with
  | nil => simp [insertAsc]
  | cons y ys =>
    rw [insertAsc]
    by_cases h : x ≤ y
    · rw [if_pos h]; simp
    · rw [if_neg h]; simp

theorem sortAsc_ne_nil (l : List ℕ) (h : l ≠ []) : sortAsc l ≠ [] := by
  cases l with
  | nil => exact absurd rfl h
  | cons x xs =>
    rw [sortAsc]
    exact insertAsc_ne_nil x (sortAsc xs)

/-- **C3 (amended).** `get_courses()` visits all loops in ascending id order,
maintains a current course, seals the current course and starts a new one
exactly when a visited loop has a registered parent already in the current
course, otherwise appends the loop to the current course — i.e. it computes
exactly the specification's fold — and after the scan it appends the final
current course *unconditionally*.  Consequently the concatenation of the
returned courses is the ascending loop list, and when the graph is non-empty
every returned course is non-empty (on the empty graph the result is a single
empty course). -/
theorem C3_get_courses (g : KG) :
    g.get_courses = courseAlgSpec g.parents g.sorted_loops ∧
    g.get_courses.flatten = g.sorted_loops ∧
    (g.nodes ≠ [] → ∀ co ∈ g.get_courses, co ≠ []) := by
  refine ⟨?_, ?_, ?_⟩
  · rw [KG.get_courses, courseAlgSpec]
    exact coursesGo_eq_fold g.parents g.sorted_loops [] []
  · rw [KG.get_courses, coursesGo_flatten]
    simp
  · intro hne
    have hs : g.sorted_loops ≠ [] := sortAsc_ne_nil g.nodes hne
    rw [KG.get_courses]
    cases hcase : g.sorted_loops with
    | nil => exact absurd hcase hs
    | cons l ls =>
      rw [coursesGo]
      have hfalse : ((g.parents l).any (fun p => p ∈ ([] : List ℕ))) = false := by
        simp
      rw [hfalse]
      simp only [Bool.false_eq_true, if_false, List.nil_append]
      exact coursesGo_ne_nil g.parents ls [] [l] (by simp) (by simp)

/-- Witness for C3 on the three-loop chain graph (it has courses `[[0], [1],
[2]]`, all non-empty). -/
theorem C3_get_courses_witness :
    chainKG.get_courses = courseAlgSpec chainKG.parents chainKG.sorted_loops ∧
    chainKG.get_courses.flatten = chainKG.sorted_loops ∧
    (∀ co ∈ chainKG.get_courses, co ≠ []) :=
  ⟨(C3_get_courses chainKG).1, (C3_get_courses chainKG).2.1,
    (C3_get_courses chainKG).2.2 (by decide)⟩

/-- **C3 counterexample.** On the empty knit graph the final (empty) current
course is appended even though it is empty: `get_courses()` returns a list
containing an empty course, so the claim's "appends the final current course
only if it is non-empty (in particular, every course in the returned list is
non-empty)" fails as stated. -/
theorem C3_get_courses_cex :
    KG.emptyGraph.get_courses = [[]] ∧
    ¬(∀ co ∈ KG.emptyGraph.get_courses, co ≠ []) := by
  constructor
  · rfl
  · intro h
    exact h [] (by rw [show KG.emptyGraph.get_courses = [[]] from rfl]; simp) rfl

/-! ### C1: removal consistency -/

theorem remove_loop_core (g : KG) (l : ℕ) (h : g.containsLoop l = true) :
    (g.remove_loop l).1.nodes = g.nodes.erase l ∧
    (g.remove_loop l).1.stitches = g.stitches.filter (fun e => e.1 ≠ l ∧ e.2.1 ≠ l) ∧
    (g.remove_loop l).1.parents =
      (match g.get_child_loop l with
        | some c => updf (updf g.parents l []) c (((updf g.parents l []) c).erase l)
        | none => updf g.parents l []) := by
  unfold KG.remove_loop
  rw [if_neg (by simp [h])]
  dsimp only [KG.get_child_loop]
  cases hfind : g.stitches.find? (fun e => e.1 = l) with
  | none =>
    dsimp only [Option.map]
    repeat' split
    all_goals exact ⟨rfl, rfl, rfl⟩
  | some e =>
    dsimp only [Option.map]
    repeat' split
    all_goals exact ⟨rfl, rfl, rfl⟩

/-- **C1 (amended).** For every knit graph containing a loop `L` with exactly
one parent `P` and exactly one child `C`, *and such that `L` is `C`'s only
parent and `L` is `P`'s only child*, `remove_loop(L)` leaves `C` with zero
parents, leaves `P` with no recorded child, and decreases the stitch-graph
node count by exactly one.  (Without the added side conditions the claim fails:
see the counterexample, where the child has a second parent that survives.) -/
theorem C1_remove_loop_consistency (g : KG) (L P C : ℕ)
    (hmem : g.containsLoop L = true)
    (hLC : L ≠ C)
    (_hparL : g.parents L = [P])
    (hchild : g.get_child_loop L = some C)
    (_honlyC : ∀ e ∈ g.stitches, e.1 = L → e.2.1 = C)
    (hparC : g.parents C = [L])
    (honlyP : ∀ e ∈ g.stitches, e.1 = P → e.2.1 = L) :
    (g.remove_loop L).1.parents C = [] ∧
    (g.remove_loop L).1.get_child_loop P = none ∧
    (g.remove_loop L).1.nodes.length + 1 = g.nodes.length := by
  obtain ⟨hn, hs, hp⟩ := remove_loop_core g L hmem
  have hLmem : L ∈ g.nodes := by
    have hm := hmem
    rw [KG.containsLoop] at hm
    simpa using hm
  refine ⟨?_, ?_, ?_⟩
  · rw [hp, hchild]
    dsimp only
    rw [updf_same, updf_other g.parents L C [] (Ne.symm hLC), hparC]
    simp
  · rw [KG.get_child_loop, hs]
    have hfind : (g.stitches.filter (fun e => e.1 ≠ L ∧ e.2.1 ≠ L)).find?
        (fun e => e.1 = P) = none := by
      apply List.find?_eq_none.mpr
      intro e he
      have hmem' := List.mem_of_mem_filter he
      have hfil := List.of_mem_filter he
      simp only [decide_eq_true_eq] at hfil
      simp only [decide_eq_true_eq]
      intro hep
      exact hfil.2 (honlyP e hmem' hep)
    rw [hfind]
    rfl
  · rw [hn, List.length_erase_of_mem hLmem]
    have := List.length_pos_of_mem hLmem
    omega

/-- Witness for C1 on the three-loop chain `0 → 1 → 2`: removing the middle
loop `1`. -/
theorem C1_remove_loop_consistency_witness :
    (chainKG.remove_loop 1).1.parents 2 = [] ∧
    (chainKG.remove_loop 1).1.get_child_loop 0 = none ∧
    (chainKG.remove_loop 1).1.nodes.length + 1 = chainKG.nodes.length :=
  C1_remove_loop_consistency chainKG 1 0 2 (by decide) (by decide) (by decide)
    (by decide) (by decide) (by decide) (by decide)

/-- **C1 counterexample.** In `cxKG`, loop `1` has exactly one parent (`0`)
and exactly one child (`2`), yet after `remove_loop(1)` the child `2` does
*not* have zero parents (its other parent `3` survives), refuting the claim as
stated. -/
theorem C1_remove_loop_consistency_cex :
    cxKG.parents 1 = [0] ∧
    cxKG.get_child_loop 1 = some 2 ∧
    (∀ e ∈ cxKG.stitches, e.1 = 1 → e.2.1 = 2) ∧
    (cxKG.remove_loop 1).1.parents 2 = [3] ∧
    ¬((cxKG.remove_loop 1).1.parents 2 = []) := by
  refine ⟨by decide, by decide, by decide, by decide, by decide⟩

theorem zipConsec_nil : zipConsec [] = [] := rfl

theorem zipConsec_single (a : ℕ) : zipConsec [a] = [] := rfl

theorem zipConsec_cons₂ (a b : ℕ) (t : List ℕ) :
    zipConsec (a :: b :: t) = (a, b) :: zipConsec (b :: t) := rfl

theorem zipConsec_snd_mem {u v : ℕ} :
    ∀ {c : List ℕ}, (u, v) ∈ zipConsec c → v ∈ c.tail := by
  intro c
  match c with
  | [] => intro h; simp [zipConsec] at h
  | [a] => intro h; simp [zipConsec] at h
  | a :: b :: t =>
    intro h
    rw [zipConsec_cons₂] at h
    rcases List.mem_cons.mp h with h | h
    · rw [Prod.mk.injEq] at h
      simp [h.2]
    · have := zipConsec_snd_mem h
      simp only [List.tail_cons] at this ⊢
      exact List.mem_cons_of_mem b this

theorem zipConsec_fst_mem {u v : ℕ} :
    ∀ {c : List ℕ}, (u, v) ∈ zipConsec c → u ∈ c := by
  intro c
  match c with
  | [] => intro h; simp [zipConsec] at h
  | [a] => intro h; simp [zipConsec] at h
  | a :: b :: t =>
    intro h
    rw [zipConsec_cons₂] at h
    rcases List.mem_cons.mp h with h | h
    · rw [Prod.mk.injEq] at h
      simp [h.1]
    · exact List.mem_cons_of_mem a (zipConsec_fst_mem h)

theorem zipConsec_mem_both {u v : ℕ} {c : List ℕ} (h : (u, v) ∈ zipConsec c) :
    u ∈ c ∧ v ∈ c :=
  ⟨zipConsec_fst_mem h, List.mem_of_mem_tail (zipConsec_snd_mem h)⟩

theorem zipConsec_mem_of_split (u v : ℕ) :
    ∀ (s t : List ℕ), (u, v) ∈ zipConsec (s ++ u :: v :: t) := by
  intro s
  induction s with
  | nil => intro t; rw [List.nil_append, zipConsec_cons₂]; simp
  | cons a s' ih =>
    intro t
    have hne : s' ++ u :: v :: t ≠ [] := by simp
    match hm : s' ++ u :: v :: t with
    | [] => exact absurd hm hne
    | b :: rest =>
      rw [List.cons_append, hm, zipConsec_cons₂]
      have := ih t
      rw [hm] at this
      exact List.mem_cons_of_mem _ this

theorem zipConsec_snd_unique {l : ℕ} :
    ∀ {c : List ℕ}, c.Nodup → ∀ {x y : ℕ},
      (x, l) ∈ zipConsec c → (y, l) ∈ zipConsec c → x = y := by
  intro c
  match c with
  | [] => intro _ x y h; simp [zipConsec] at h
  | [a] => intro _ x y h; simp [zipConsec] at h
  | a :: b :: t =>
    intro hnd x y hx hy
    rw [zipConsec_cons₂] at hx hy
    have hbt : b ∉ t := by
      have := List.nodup_cons.mp hnd
      exact (List.nodup_cons.mp this.2).1
    rcases List.mem_cons.mp hx with hx1 | hx2 <;> rcases List.mem_cons.mp hy with hy1 | hy2
    · rw [Prod.mk.injEq] at hx1 hy1
      rw [hx1.1, hy1.1]
    · rw [Prod.mk.injEq] at hx1
      exfalso
      have hl : l = b := hx1.2
      subst hl
      have := zipConsec_snd_mem hy2
      simp only [List.tail_cons] at this
      exact hbt this
    · rw [Prod.mk.injEq] at hy1
      exfalso
      have hl : l = b := hy1.2
      subst hl
      have := zipConsec_snd_mem hx2
      simp only [List.tail_cons] at this
      exact hbt this
    · exact zipConsec_snd_unique (List.nodup_cons.mp hnd).2 hx2 hy2

theorem zipConsec_fst_unique {l : ℕ} :
    ∀ {c : List ℕ}, c.Nodup → ∀ {x y : ℕ},
      (l, x) ∈ zipConsec c → (l, y) ∈ zipConsec c → x = y := by
  intro c
  match c with
  | [] => intro _ x y h; simp [zipConsec] at h
  | [a] => intro _ x y h; simp [zipConsec] at h
  | a :: b :: t =>
    intro hnd x y hx hy
    rw [zipConsec_cons₂] at hx hy
    have hat : a ∉ b :: t := (List.nodup_cons.mp hnd).1
    rcases List.mem_cons.mp hx with hx1 | hx2 <;> rcases List.mem_cons.mp hy with hy1 | hy2
    · rw [Prod.mk.injEq] at hx1 hy1
      rw [hx1.2, hy1.2]
    · rw [Prod.mk.injEq] at hx1
      exfalso
      have hl : l = a := hx1.1
      subst hl
      exact hat (zipConsec_fst_mem hy2)
    · rw [Prod.mk.injEq] at hy1
      exfalso
      have hl : l = a := hy1.1
      subst hl
      exact hat (zipConsec_fst_mem hx2)
    · exact zipConsec_fst_unique (List.nodup_cons.mp hnd).2 hx2 hy2

theorem zipConsec_append :
    ∀ (xs ys : List ℕ) (h1 : xs ≠ []) (h2 : ys ≠ []),
      zipConsec (xs ++ ys) =
        zipConsec xs ++ (xs.getLast h1, ys.head h2) :: zipConsec ys := by
  intro xs
  match xs with
  | [] => intro ys h1 h2; exact absurd rfl h1
  | [a] =>
    intro ys h1 h2
    match ys, h2 with
    | b :: t, _ => rfl
  | a :: b :: t =>
    intro ys h1 h2
    have ih := zipConsec_append (b :: t) ys (by simp) h2
    show zipConsec (a :: ((b :: t) ++ ys)) = _
    have hstep : zipConsec (a :: ((b :: t) ++ ys)) =
        (a, b) :: zipConsec ((b :: t) ++ ys) := rfl
    rw [hstep, ih, zipConsec_cons₂]
    simp [List.getLast_cons]

theorem yarnInv_empty : YarnInv YarnM.empty :=
  ⟨List.chain'_nil, rfl, rfl, List.Perm.refl _⟩

theorem yarnInv_nodup {ys : YarnM} (hinv : YarnInv ys) : ys.nodes.Nodup :=
  (List.chain'_iff_pairwise.mp hinv.chain).imp fun h => Nat.ne_of_lt h

theorem removeFloatOccupant_nodes (ys : YarnM) (l : ℕ) :
    (removeFloatOccupant ys l).nodes = ys.nodes := rfl

theorem yarnInv_removeFloatOccupant (ys : YarnM) (l : ℕ) (hinv : YarnInv ys) :
    YarnInv (removeFloatOccupant ys l) := by
  refine ⟨hinv.chain, hinv.first_eq, hinv.last_eq, ?_⟩
  have : ((removeFloatOccupant ys l).edges.map fun e => (e.src, e.dst)) =
      ys.edges.map fun e => (e.src, e.dst) := by
    rw [removeFloatOccupant, List.map_map]
    rfl
  rw [this]
  exact hinv.edges_perm

theorem yarnInv_insert_end (ys : YarnM) (lid : ℕ) (hinv : YarnInv ys)
    (hfresh : ∀ x ∈ ys.nodes, x < lid) :
    YarnInv (ys.insert_loop lid ys.last) ∧
    (ys.insert_loop lid ys.last).nodes = ys.nodes ++ [lid] := by
  have hlidmem : lid ∉ ys.nodes := fun hm => Nat.lt_irrefl lid (hfresh lid hm)
  have hnodes : addNode ys.nodes lid = ys.nodes ++ [lid] := by
    rw [addNode, if_neg hlidmem]
  cases hlast : ys.last with
  | none =>
    have hnil : ys.nodes = [] := by
      have := hinv.last_eq
      rw [hlast] at this
      exact List.getLast?_eq_none_iff.mp this.symm
    have hedges : ys.edges = [] := by
      have hp := hinv.edges_perm
      rw [hnil, zipConsec_nil] at hp
      have := List.Perm.eq_nil hp
      exact List.map_eq_nil_iff.mp this
    constructor
    · refine ⟨?_, ?_, ?_, ?_⟩ <;>
        simp [YarnM.insert_loop, hlast, addNode, hnil, hedges, zipConsec_single]
    · simp [YarnM.insert_loop, hlast, addNode, hnil]
  | some lastL =>
    have hne : ys.nodes ≠ [] := by
      intro hn
      have := hinv.last_eq
      rw [hlast, hn] at this
      simp at this
    have hlastL : ys.nodes.getLast hne = lastL := by
      have := hinv.last_eq
      rw [hlast, List.getLast?_eq_getLast ys.nodes hne] at this
      exact (Option.some.injEq _ _ ▸ this).symm
    have hlastLmem : lastL ∈ ys.nodes := by
      rw [← hlastL]
      exact List.getLast_mem hne
    have hfilter : ys.edges.filter (fun e => ¬(e.src = lastL ∧ e.dst = lid)) = ys.edges := by
      rw [List.filter_eq_self]
      intro e he
      simp only [decide_eq_true_eq, Bool.not_eq_true', decide_eq_false_iff_not]
      intro hcon
      have : (e.src, e.dst) ∈ zipConsec ys.nodes :=
        hinv.edges_perm.mem_iff.mp (List.mem_map_of_mem _ he)
      rw [hcon.1, hcon.2] at this
      exact hlidmem (zipConsec_mem_both this).2
    have hstep : ys.insert_loop lid (some lastL) =
        { ys with
            nodes := ys.nodes ++ [lid]
            edges := ys.edges ++ [⟨lastL, lid, ∅, ∅⟩]
            last := some lid } := by
      rw [YarnM.insert_loop, hlast]
      simp only [hnodes, Option.getD_some, addYEdge]
      rw [hfilter]
      simp
    rw [hstep]
    refine ⟨⟨?_, ?_, ?_, ?_⟩, rfl⟩
    · exact hinv.chain.append (List.chain'_singleton lid)
        (by
          intro x hx z hz
          rw [List.getLast?_eq_getLast ys.nodes hne, Option.mem_def,
            Option.some.injEq] at hx
          simp only [List.head?_cons, Option.mem_def, Option.some.injEq] at hz
          rw [← hx, ← hz] at *
          exact hfresh _ (hx ▸ List.getLast_mem hne))
    · simp only
      rw [hinv.first_eq]
      cases hn : ys.nodes with
      | nil => exact absurd hn hne
      | cons a t => rfl
    · simp only
      rw [List.getLast?_concat]
    · simp only [List.map_append, List.map_cons, List.map_nil]
      rw [zipConsec_append ys.nodes [lid] hne (by simp)]
      have : zipConsec [lid] = [] := rfl
      rw [this, hlastL]
      simp only [List.head_cons]
      exact hinv.edges_perm.append_right [(lastL, lid)]

theorem zipConsec_mem_split {u v : ℕ} :
    ∀ {c : List ℕ}, (u, v) ∈ zipConsec c → ∃ s t, c = s ++ u :: v :: t := by
  intro c
  match c with
  | [] => intro h; simp [zipConsec] at h
  | [a] => intro h; simp [zipConsec] at h
  | a :: b :: t =>
    intro h
    rw [zipConsec_cons₂] at h
    rcases List.mem_cons.mp h with h | h
    · rw [Prod.mk.injEq] at h
      exact ⟨[], t, by rw [← h.1, ← h.2]; rfl⟩
    · obtain ⟨s', t', hs⟩ := zipConsec_mem_split h
      exact ⟨a :: s', t', by rw [List.cons_append, ← hs]⟩

theorem nodup_split_unique {l : ℕ} :
    ∀ {a1 : List ℕ} {a2 b1 b2 : List ℕ}, (a1 ++ l :: a2).Nodup →
      a1 ++ l :: a2 = b1 ++ l :: b2 → a1 = b1 ∧ a2 = b2 := by
  intro a1
  induction a1 with
  | nil =>
    intro a2 b1 b2 hnd heq
    cases b1 with
    | nil =>
      simp only [List.nil_append, List.cons.injEq] at heq
      exact ⟨rfl, heq.2⟩
    | cons x b1' =>
      exfalso
      simp only [List.nil_append, List.cons_append, List.cons.injEq] at heq
      have hmem : l ∈ a2 := by
        rw [heq.2]
        exact List.mem_append_right _ (List.mem_cons_self l b2)
      simp only [List.nil_append] at hnd
      exact (List.nodup_cons.mp hnd).1 hmem
  | cons x a1' ih =>
    intro a2 b1 b2 hnd heq
    cases b1 with
    | nil =>
      exfalso
      simp only [List.nil_append, List.cons_append, List.cons.injEq] at heq
      have hmem : l ∈ a1' ++ l :: a2 := List.mem_append_right _ (List.mem_cons_self l a2)
      rw [List.cons_append, heq.1] at hnd
      exact (List.nodup_cons.mp hnd).1 hmem
    | cons y b1' =>
      simp only [List.cons_append, List.cons.injEq] at heq
      have hnd' : (a1' ++ l :: a2).Nodup := by
        rw [List.cons_append] at hnd
        exact (List.nodup_cons.mp hnd).2
      obtain ⟨h1, h2⟩ := ih hnd' heq.2
      exact ⟨by rw [heq.1, h1], h2⟩

theorem findPred_none (ys : YarnM) (l : ℕ) (c2 : List ℕ) (hinv : YarnInv ys)
    (hc : ys.nodes = l :: c2) :
    ys.edges.find? (fun e => e.dst = l) = none := by
  apply List.find?_eq_none.mpr
  intro e he
  simp only [decide_eq_true_eq]
  intro hdst
  have hz : (e.src, e.dst) ∈ zipConsec ys.nodes :=
    hinv.edges_perm.mem_iff.mp (List.mem_map_of_mem _ he)
  rw [hdst, hc] at hz
  have hmem := zipConsec_snd_mem hz
  simp only [List.tail_cons] at hmem
  have hnd := yarnInv_nodup hinv
  rw [hc] at hnd
  exact (List.nodup_cons.mp hnd).1 hmem

theorem findPred_some (ys : YarnM) (l p : ℕ) (c1 c2 : List ℕ) (hinv : YarnInv ys)
    (hc : ys.nodes = c1 ++ p :: l :: c2) :
    ∃ e, ys.edges.find? (fun e => e.dst = l) = some e ∧ e.src = p ∧ e.dst = l := by
  have hnd := yarnInv_nodup hinv
  have hzmem : (p, l) ∈ zipConsec ys.nodes := by
    rw [hc]; exact zipConsec_mem_of_split p l c1 c2
  have hemem : (p, l) ∈ ys.edges.map (fun e => (e.src, e.dst)) :=
    hinv.edges_perm.mem_iff.mpr hzmem
  obtain ⟨e0, he0, hpair⟩ := List.mem_map.mp hemem
  rw [Prod.mk.injEq] at hpair
  cases hfind : ys.edges.find? (fun e => e.dst = l) with
  | none =>
    exfalso
    have hno := List.find?_eq_none.mp hfind e0 he0
    simp only [decide_eq_true_eq] at hno
    exact hno hpair.2
  | some e =>
    have hdst : e.dst = l := by
      have := List.find?_some hfind
      simpa using this
    have hsrc : e.src = p := by
      have hmem := List.mem_of_find?_eq_some hfind
      have hz : (e.src, l) ∈ zipConsec ys.nodes := by
        have := hinv.edges_perm.mem_iff.mp (List.mem_map_of_mem _ hmem)
        rwa [hdst] at this
      exact zipConsec_snd_unique hnd hz hzmem
    exact ⟨e, rfl, hsrc, hdst⟩

theorem findSucc_none (ys : YarnM) (l : ℕ) (c1 : List ℕ) (hinv : YarnInv ys)
    (hc : ys.nodes = c1 ++ [l]) :
    ys.edges.find? (fun e => e.src = l) = none := by
  apply List.find?_eq_none.mpr
  intro e he
  simp only [decide_eq_true_eq]
  intro hsrc
  have hz : (e.src, e.dst) ∈ zipConsec ys.nodes :=
    hinv.edges_perm.mem_iff.mp (List.mem_map_of_mem _ he)
  rw [hsrc, hc] at hz
  obtain ⟨s, t, hst⟩ := zipConsec_mem_split hz
  have hnd := yarnInv_nodup hinv
  rw [hc] at hnd
  have hsplit := nodup_split_unique hnd hst
  have h2 := hsplit.2
  simp at h2

theorem findSucc_some (ys : YarnM) (l s : ℕ) (c1 c2 : List ℕ) (hinv : YarnInv ys)
    (hc : ys.nodes = c1 ++ l :: s :: c2) :
    ∃ e, ys.edges.find? (fun e => e.src = l) = some e ∧ e.src = l ∧ e.dst = s := by
  have hnd := yarnInv_nodup hinv
  have hzmem : (l, s) ∈ zipConsec ys.nodes := by
    rw [hc]; exact zipConsec_mem_of_split l s c1 c2
  have hemem : (l, s) ∈ ys.edges.map (fun e => (e.src, e.dst)) :=
    hinv.edges_perm.mem_iff.mpr hzmem
  obtain ⟨e0, he0, hpair⟩ := List.mem_map.mp hemem
  rw [Prod.mk.injEq] at hpair
  cases hfind : ys.edges.find? (fun e => e.src = l) with
  | none =>
    exfalso
    have hno := List.find?_eq_none.mp hfind e0 he0
    simp only [decide_eq_true_eq] at hno
    exact hno hpair.1
  | some e =>
    have hsrc : e.src = l := by
      have := List.find?_some hfind
      simpa using this
    have hdst : e.dst = s := by
      have hmem := List.mem_of_find?_eq_some hfind
      have hz : (l, e.dst) ∈ zipConsec ys.nodes := by
        have := hinv.edges_perm.mem_iff.mp (List.mem_map_of_mem _ hmem)
        rwa [hsrc] at this
      exact zipConsec_fst_unique hnd hz hzmem
    exact ⟨e, rfl, hsrc, hdst⟩

theorem map_filter_comm {α β : Type} (f : α → β) (p : β → Bool) :
    ∀ (l : List α), (l.filter (fun a => p (f a))).map f = (l.map f).filter p := by
  intro l
  induction l with
  | nil => rfl
  | cons a t ih =>
    by_cases hp : p (f a) = true
    · rw [List.filter_cons_of_pos (by simpa using hp), List.map_cons, List.map_cons,
        List.filter_cons_of_pos hp, ih]
    · rw [List.filter_cons_of_neg (by simpa using hp), List.map_cons,
        List.filter_cons_of_neg (by simpa using hp), ih]

theorem zipConsec_filter_keep (c : List ℕ) (l : ℕ) (hl : l ∉ c) :
    (zipConsec c).filter (fun pr => pr.1 ≠ l ∧ pr.2 ≠ l) = zipConsec c := by
  rw [List.filter_eq_self]
  intro pr hpr
  have hb : (pr.1, pr.2) ∈ zipConsec c := by
    cases pr with
    | mk a b => exact hpr
  obtain ⟨h1, h2⟩ := zipConsec_mem_both hb
  simp only [decide_eq_true_eq]
  exact ⟨fun he => hl (he ▸ h1), fun he => hl (he ▸ h2)⟩

theorem chain_lt_of_sublist {c d : List ℕ} (h : List.Chain' (· < ·) c)
    (hs : d.Sublist c) : List.Chain' (· < ·) d := by
  rw [List.chain'_iff_pairwise] at h ⊢
  exact h.sublist hs

theorem head?_append_left {l1 l2 : List ℕ} (h : l1 ≠ []) :
    (l1 ++ l2).head? = l1.head? := by
  cases l1 with
  | nil => exact absurd rfl h
  | cons a t => rfl

theorem mem_of_getLast?_eq : ∀ {L : List ℕ} {a : ℕ}, L.getLast? = some a → a ∈ L := by
  intro L
  match L with
  | [] => intro a h; simp at h
  | [x] =>
    intro a h
    simp only [List.getLast?_singleton, Option.some.injEq] at h
    simp [h]
  | x :: y :: t =>
    intro a h
    rw [List.getLast?_cons_cons] at h
    exact List.mem_cons_of_mem x (mem_of_getLast?_eq h)

theorem yarnInv_removeLoop (ys : YarnM) (l : ℕ) (hinv : YarnInv ys) (hl : l ∈ ys.nodes) :
    YarnInv (ys.removeLoop l) ∧ (ys.removeLoop l).nodes = ys.nodes.erase l := by
  obtain ⟨c1, c2, hc⟩ := List.append_of_mem hl
  have hnd : ys.nodes.Nodup := yarnInv_nodup hinv
  have hndc : (c1 ++ l :: c2).Nodup := by rw [← hc]; exact hnd
  have hsplit := List.nodup_append.mp hndc
  have hlc2 : l ∉ c2 := (List.nodup_cons.mp hsplit.2.1).1
  have hlc1 : l ∉ c1 := fun hm => hsplit.2.2 hm (List.mem_cons_self l c2)
  have herase : ys.nodes.erase l = c1 ++ c2 := by
    rw [hc, List.erase_append_right _ hlc1, List.erase_cons_head]
  have hchain12 : List.Chain' (· < ·) (c1 ++ c2) := by
    have hp := List.chain'_iff_pairwise.mp hinv.chain
    rw [hc] at hp
    rw [List.chain'_iff_pairwise]
    exact hp.sublist ((List.sublist_cons_self l c2).append_left c1)
  have hmapfil : ∀ (E : List YEdge), (E.filter (fun e => e.src ≠ l ∧ e.dst ≠ l)).map
      (fun e => (e.src, e.dst)) =
      (E.map (fun e => (e.src, e.dst))).filter
        (fun pr => pr.1 ≠ l ∧ pr.2 ≠ l) := by
    intro E
    induction E with
    | nil => rfl
    | cons e t ih =>
      by_cases hp : e.src ≠ l ∧ e.dst ≠ l
      · rw [List.filter_cons_of_pos (by simpa using hp), List.map_cons, List.map_cons,
          List.filter_cons_of_pos (by simpa using hp), ih]
      · rw [List.filter_cons_of_neg (by simpa using hp), List.map_cons,
          List.filter_cons_of_neg (by simpa using hp), ih]
  have hkeepPairs : List.Perm
      ((ys.edges.filter (fun e => e.src ≠ l ∧ e.dst ≠ l)).map (fun e => (e.src, e.dst)))
      ((zipConsec ys.nodes).filter (fun pr => pr.1 ≠ l ∧ pr.2 ≠ l)) := by
    rw [hmapfil ys.edges]
    exact hinv.edges_perm.filter _
  refine ⟨?_, rfl⟩
  rcases List.eq_nil_or_concat c1 with hc1 | ⟨c1p, p, hc1⟩
  · -- l is the first loop of the yarn
    subst hc1
    simp only [List.nil_append] at hc herase
    have hfirst : ys.first = some l := by
      rw [hinv.first_eq, hc]; rfl
    have hpredE := findPred_none ys l c2 hinv hc
    cases c2 with
    | nil =>
      -- l is the only loop
      have hedges : ys.edges = [] := by
        have hp := hinv.edges_perm
        rw [hc, zipConsec_single] at hp
        exact List.map_eq_nil_iff.mp (List.Perm.eq_nil hp)
      have hsuccE : ys.edges.find? (fun e => e.src = l) = none := by
        rw [hedges]; rfl
      have hlast : ys.last = some l := by
        rw [hinv.last_eq, hc]; rfl
      have hr : ys.removeLoop l =
          { nodes := ys.nodes.erase l, edges := [], first := none, last := none } := by
        rw [YarnM.removeLoop]
        simp only [hpredE, hsuccE, hedges, List.filter_nil, hfirst, if_pos rfl,
          hlast]
        simp
      rw [hr]
      refine ⟨?_, ?_, ?_, ?_⟩ <;> simp [herase, zipConsec_nil]
    | cons s c2' =>
      -- l has a successor but no predecessor
      obtain ⟨se, hsuccE, hsesrc, hsedst⟩ :=
        findSucc_some ys l s [] c2' hinv (by rw [hc]; rfl)
      have hlastne : ¬ ys.last = some l := by
        intro heq
        rw [hinv.last_eq, hc] at heq
        have h1 : (l :: s :: c2').getLast? = (s :: c2').getLast? := by
          rw [List.getLast?_cons_cons]
        rw [h1] at heq
        exact hlc2 (mem_of_getLast?_eq heq)
      have hr : ys.removeLoop l =
          { nodes := ys.nodes.erase l
            edges := ys.edges.filter (fun e => e.src ≠ l ∧ e.dst ≠ l)
            first := some se.dst
            last := ys.last } := by
        rw [YarnM.removeLoop]
        simp only [hpredE, hsuccE, hfirst, if_pos rfl, if_neg hlastne]
        simp
      rw [hr]
      have hzc : zipConsec ys.nodes = (l, s) :: zipConsec (s :: c2') := by
        rw [hc]; rfl
      refine ⟨?_, ?_, ?_, ?_⟩
      · simp only [herase]
        exact hchain12
      · simp only [herase, hsedst]
        rfl
      · simp only [herase]
        rw [hinv.last_eq, hc, List.getLast?_cons_cons]
      · simp only [herase, List.nil_append]
        have hfil : (zipConsec ys.nodes).filter (fun pr => pr.1 ≠ l ∧ pr.2 ≠ l) =
            zipConsec (s :: c2') := by
          rw [hzc, List.filter_cons_of_neg (by simp),
            zipConsec_filter_keep (s :: c2') l hlc2]
        rw [← hfil]
        exact hkeepPairs
  · -- l has a predecessor p
    rw [List.concat_eq_append] at hc1
    subst hc1
    have hc1ne : c1p ++ [p] ≠ [] := by simp
    have hfirstne : ¬ ys.first = some l := by
      intro heq
      rw [hinv.first_eq, hc, head?_append_left hc1ne] at heq
      cases hcc : c1p ++ [p] with
      | nil => exact hc1ne hcc
      | cons a t =>
        rw [hcc] at heq
        simp only [List.head?_cons, Option.some.injEq] at heq
        exact hlc1 (by rw [hcc, heq]; exact List.mem_cons_self l t)
    obtain ⟨pe, hpredE, hpesrc, hpedst⟩ :=
      findPred_some ys l p c1p c2 hinv (by rw [hc, List.append_assoc]; rfl)
    have hgetlast : (c1p ++ [p]).getLast hc1ne = p := List.getLast_concat _
    have hzc1 : zipConsec (c1p ++ [p] ++ l :: c2) =
        zipConsec (c1p ++ [p]) ++ (p, l) :: zipConsec (l :: c2) := by
      rw [zipConsec_append (c1p ++ [p]) (l :: c2) hc1ne (by simp), hgetlast]
      rfl
    have hkeep1 : (zipConsec (c1p ++ [p])).filter (fun pr => pr.1 ≠ l ∧ pr.2 ≠ l) =
        zipConsec (c1p ++ [p]) := zipConsec_filter_keep _ l hlc1
    cases c2 with
    | nil =>
      -- l is the last loop
      have hsuccE := findSucc_none ys l (c1p ++ [p]) hinv (by rw [hc])
      have hlast : ys.last = some l := by
        rw [hinv.last_eq, hc, List.getLast?_append_of_ne_nil _ (by simp)]
        rfl
      have hr : ys.removeLoop l =
          { nodes := ys.nodes.erase l
            edges := ys.edges.filter (fun e => e.src ≠ l ∧ e.dst ≠ l)
            first := ys.first
            last := some pe.src } := by
        rw [YarnM.removeLoop]
        simp only [hpredE, hsuccE, if_neg hfirstne, hlast, if_pos rfl]
        simp
      rw [hr]
      refine ⟨?_, ?_, ?_, ?_⟩
      · simp only [herase]
        exact hchain12
      · simp only [herase]
        rw [hinv.first_eq, hc, head?_append_left hc1ne, head?_append_left hc1ne]
      · simp only [herase, List.append_nil, hpesrc]
        rw [List.getLast?_concat]
      · simp only [herase, List.append_nil]
        have hfil : (zipConsec ys.nodes).filter (fun pr => pr.1 ≠ l ∧ pr.2 ≠ l) =
            zipConsec (c1p ++ [p]) := by
          rw [hc, hzc1, List.filter_append, hkeep1]
          have h2 : ((p, l) :: zipConsec (l :: ([] : List ℕ))).filter
              (fun pr => pr.1 ≠ l ∧ pr.2 ≠ l) = [] := by
            rw [zipConsec_single]
            simp
          rw [h2, List.append_nil]
        rw [← hfil]
        exact hkeepPairs
    | cons s c2' =>
      -- l is interior: predecessor p and successor s
      obtain ⟨se, hsuccE, hsesrc, hsedst⟩ :=
        findSucc_some ys l s (c1p ++ [p]) c2' hinv (by rw [hc])
      have hlastne : ¬ ys.last = some l := by
        intro heq
        rw [hinv.last_eq, hc, List.getLast?_append_of_ne_nil _ (by simp),
          List.getLast?_cons_cons] at heq
        exact hlc2 (mem_of_getLast?_eq heq)
      have hr : ys.removeLoop l =
          { nodes := ys.nodes.erase l
            edges := ys.edges.filter (fun e => e.src ≠ l ∧ e.dst ≠ l) ++
              [⟨pe.src, se.dst, pe.front ∪ se.front, pe.back ∪ se.back⟩]
            first := ys.first
            last := ys.last } := by
        rw [YarnM.removeLoop]
        simp only [hpredE, hsuccE, if_neg hfirstne, if_neg hlastne]
      rw [hr]
      have hc2ne : (s :: c2' : List ℕ) ≠ [] := by simp
      refine ⟨?_, ?_, ?_, ?_⟩
      · simp only [herase]
        exact hchain12
      · simp only [herase]
        rw [hinv.first_eq, hc, head?_append_left hc1ne, head?_append_left hc1ne]
      · simp only [herase]
        rw [hinv.last_eq, hc, List.getLast?_append_of_ne_nil _ (by simp),
          List.getLast?_cons_cons, List.getLast?_append_of_ne_nil _ hc2ne]
      · simp only [herase, List.map_append, List.map_cons, List.map_nil,
          hpesrc, hsedst]
        have hfil : (zipConsec ys.nodes).filter (fun pr => pr.1 ≠ l ∧ pr.2 ≠ l) =
            zipConsec (c1p ++ [p]) ++ zipConsec (s :: c2') := by
          rw [hc, hzc1, List.filter_append, hkeep1]
          have h2 : ((p, l) :: zipConsec (l :: s :: c2')).filter
              (fun pr => pr.1 ≠ l ∧ pr.2 ≠ l) =
              zipConsec (s :: c2') := by
            rw [List.filter_cons_of_neg (by simp), zipConsec_cons₂,
              List.filter_cons_of_neg (by simp),
              zipConsec_filter_keep (s :: c2') l hlc2]
          rw [h2]
        have htarget : zipConsec (c1p ++ [p] ++ s :: c2') =
            zipConsec (c1p ++ [p]) ++ (p, s) :: zipConsec (s :: c2') := by
          rw [zipConsec_append (c1p ++ [p]) (s :: c2') hc1ne hc2ne, hgetlast]
          rfl
        rw [htarget]
        have hstep1 : List.Perm
            ((ys.edges.filter (fun e => e.src ≠ l ∧ e.dst ≠ l)).map
              (fun e => (e.src, e.dst)) ++ [(p, s)])
            ((zipConsec (c1p ++ [p]) ++ zipConsec (s :: c2')) ++ [(p, s)]) := by
          rw [← hfil]
          exact hkeepPairs.append_right [(p, s)]
        refine hstep1.trans ?_
        rw [List.append_assoc]
        exact List.Perm.append_left _ (List.perm_append_singleton (p, s) _)

theorem inv_empty : KGInv KG.emptyGraph := by
  refine ⟨rfl, List.nodup_nil, List.nodup_nil, ?_, ?_, ?_, ?_, ?_⟩
  · intro y hy; cases hy
  · intro y hy; cases hy
  · intro y hy; cases hy
  · intro l hl; cases hl
  · intro y _; rfl

theorem inv_connect (g : KG) (p c : ℕ) (d : PullDir) (pos : Option ℤ) (h : KGInv g) :
    KGInv (g.connect_loops p c d pos).1 := by
  rw [KG.connect_loops]
  split
  · exact h
  · split
    · exact h
    · exact ⟨h.lastOK, h.nodesNodup, h.yarnsNodup, h.yarnInv, h.yarnNE, h.own,
        h.cover, h.offYarn⟩

theorem listMax_spec :
    ∀ (L : List ℕ), (L = [] ∧ listMax L = none) ∨
      (∃ m, listMax L = some m ∧ m ∈ L ∧ ∀ x ∈ L, x ≤ m) := by
  intro L
  induction L with
  | nil => exact Or.inl ⟨rfl, rfl⟩
  | cons a t ih =>
    right
    rcases ih with ⟨ht, hmax⟩ | ⟨m, hmax, hmem, hle⟩
    · refine ⟨a, ?_, List.mem_cons_self a t, ?_⟩
      · rw [listMax, hmax]
      · intro x hx
        rcases List.mem_cons.mp hx with hx | hx
        · rw [hx]
        · rw [ht] at hx; cases hx
    · refine ⟨max a m, ?_, ?_, ?_⟩
      · rw [listMax, hmax]
      · rcases Nat.le_total a m with hc | hc
        · rw [Nat.max_eq_right hc]
          exact List.mem_cons_of_mem a hmem
        · rw [Nat.max_eq_left hc]
          exact List.mem_cons_self a t
      · intro x hx
        rcases List.mem_cons.mp hx with hx | hx
        · rw [hx]; exact Nat.le_max_left a m
        · exact Nat.le_trans (hle x hx) (Nat.le_max_right a m)

theorem chain'_le_getLast {c : List ℕ} (h : List.Chain' (· < ·) c) :
    ∀ x ∈ c, ∀ mm, c.getLast? = some mm → x ≤ mm := by
  intro x hx mm hmm
  have hdecomp := List.dropLast_append_getLast? mm hmm
  have hp := List.chain'_iff_pairwise.mp h
  rw [← hdecomp] at hp hx
  rcases List.mem_append.mp hx with hx | hx
  · have := (List.pairwise_append.mp hp).2.2 x hx mm (List.mem_singleton_self mm)
    exact Nat.le_of_lt this
  · rw [List.mem_singleton.mp hx]

theorem yarn_eq_empty {ys : YarnM} (hinv : YarnInv ys) (h : ys.nodes = []) :
    ys = YarnM.empty := by
  have hedges : ys.edges = [] := by
    have hp := hinv.edges_perm
    rw [h, zipConsec_nil] at hp
    exact List.map_eq_nil_iff.mp (List.Perm.eq_nil hp)
  have hfirst : ys.first = none := by rw [hinv.first_eq, h]; rfl
  have hlast : ys.last = none := by rw [hinv.last_eq, h]; rfl
  cases ys with
  | mk n e f la =>
    simp only at h hedges hfirst hlast
    rw [YarnM.empty]
    simp [h, hedges, hfirst, hlast]

theorem inv_make (g : KG) (y : ℕ) (h : KGInv g) : KGInv (g.make_loop_on_end y).1 := by
  obtain ⟨lid, hlidval, hfresh⟩ :
      ∃ lid, (match g.lastLoop with | none => 0 | some m => m + 1) = lid ∧
        ∀ x ∈ g.nodes, x < lid := by
    cases hll : g.lastLoop with
    | none =>
      refine ⟨0, rfl, ?_⟩
      have hnil : g.nodes = [] := by
        have := h.lastOK; rw [hll] at this; exact this
      intro x hx
      rw [hnil] at hx
      cases hx
    | some m =>
      refine ⟨m + 1, rfl, ?_⟩
      have hm : m ∈ g.nodes ∧ ∀ x ∈ g.nodes, x ≤ m := by
        have := h.lastOK; rw [hll] at this; exact this
      intro x hx
      exact Nat.lt_succ_of_le (hm.2 x hx)
  have hlidnot : lid ∉ g.nodes := fun hm => Nat.lt_irrefl lid (hfresh lid hm)
  have hysInv : YarnInv (g.ystate y) := by
    by_cases hy : y ∈ g.yarns
    · exact h.yarnInv y hy
    · rw [h.offYarn y hy]; exact yarnInv_empty
  have hysFresh : ∀ x ∈ (g.ystate y).nodes, x < lid := by
    intro x hx
    by_cases hy : y ∈ g.yarns
    · exact hfresh x (h.own y hy x hx).2
    · rw [h.offYarn y hy] at hx; cases hx
  obtain ⟨hysInv', hysNodes⟩ := yarnInv_insert_end (g.ystate y) lid hysInv hysFresh
  have hG : (g.make_loop_on_end y).1 =
      KG.add_loop
        { g with
            yarnOf := updf g.yarnOf lid y
            ystate := updf g.ystate y ((g.ystate y).insert_loop lid (g.ystate y).last) }
        lid := by
    rw [KG.make_loop_on_end]
    simp only [hlidval]
  have haddeq : (g.make_loop_on_end y).1 =
      { g with
          nodes := g.nodes ++ [lid]
          loopIds := addKey g.loopIds lid
          yarns := if g.yarns.contains y then g.yarns else g.yarns ++ [y]
          yarnOf := updf g.yarnOf lid y
          ystate := updf g.ystate y ((g.ystate y).insert_loop lid (g.ystate y).last)
          lastLoop := some lid } := by
    rw [hG, KG.add_loop]
    dsimp only
    rw [show addNode g.nodes lid = g.nodes ++ [lid] from by rw [addNode, if_neg hlidnot]]
    rw [updf_same]
    by_cases hcy : y ∈ g.yarns
    · cases hll : g.lastLoop with
      | none => simp [hcy]
      | some m =>
        have hmmem : m ∈ g.nodes := by
          have := h.lastOK; rw [hll] at this; exact this.1
        simp [hcy, hfresh m hmmem]
    · cases hll : g.lastLoop with
      | none => simp [hcy]
      | some m =>
        have hmmem : m ∈ g.nodes := by
          have := h.lastOK; rw [hll] at this; exact this.1
        simp [hcy, hfresh m hmmem]
  rw [haddeq]
  set ysNew := (g.ystate y).insert_loop lid (g.ystate y).last with hysNew
  have hyarnsSub : ∀ y', y' ∈ g.yarns →
      y' ∈ (if g.yarns.contains y then g.yarns else g.yarns ++ [y]) := by
    intro y' hy'
    by_cases hcy : g.yarns.contains y = true
    · rw [if_pos hcy]; exact hy'
    · rw [if_neg hcy]; exact List.mem_append_left _ hy'
  have hyInYarns : y ∈ (if g.yarns.contains y then g.yarns else g.yarns ++ [y]) := by
    by_cases hcy : g.yarns.contains y = true
    · rw [if_pos hcy]; simpa using hcy
    · rw [if_neg hcy]; exact List.mem_append_right _ (List.mem_singleton_self y)
  have hyarnsInv : ∀ y', y' ∈ (if g.yarns.contains y then g.yarns else g.yarns ++ [y]) →
      y' ≠ y → y' ∈ g.yarns := by
    intro y' hy' hne
    by_cases hcy : g.yarns.contains y = true
    · rw [if_pos hcy] at hy'; exact hy'
    · rw [if_neg hcy] at hy'
      rcases List.mem_append.mp hy' with hy' | hy'
      · exact hy'
      · exact absurd (List.mem_singleton.mp hy') hne
  refine ⟨?_, ?_, ?_, ?_, ?_, ?_, ?_, ?_⟩ <;> dsimp only
  · -- lastOK
    refine ⟨List.mem_append_right _ (List.mem_singleton_self lid), ?_⟩
    intro x hx
    rcases List.mem_append.mp hx with hx | hx
    · exact Nat.le_of_lt (hfresh x hx)
    · rw [List.mem_singleton.mp hx]
  · -- nodes nodup
    rw [List.nodup_append]
    exact ⟨h.nodesNodup, List.nodup_singleton lid,
      fun a ha hb => hlidnot ((List.mem_singleton.mp hb) ▸ ha)⟩
  · -- yarns nodup
    by_cases hcy : g.yarns.contains y = true
    · simp only [if_pos hcy]; exact h.yarnsNodup
    · simp only [if_neg hcy]
      rw [List.nodup_append]
      refine ⟨h.yarnsNodup, List.nodup_singleton y, ?_⟩
      intro a ha hb
      rw [List.mem_singleton.mp hb] at ha
      exact (by simpa using hcy : ¬ y ∈ g.yarns) ha
  · -- yarn invariants
    intro y' hy'
    by_cases hne : y' = y
    · rw [hne, updf_same]; exact hysInv'
    · rw [updf_other _ _ _ _ hne]
      exact h.yarnInv y' (hyarnsInv y' hy' hne)
  · -- yarns non-empty
    intro y' hy'
    by_cases hne : y' = y
    · rw [hne, updf_same, hysNodes]
      simp
    · rw [updf_other _ _ _ _ hne]
      exact h.yarnNE y' (hyarnsInv y' hy' hne)
  · -- own
    intro y' hy' l hlmem
    by_cases hne : y' = y
    · subst hne
      rw [updf_same, hysNodes] at hlmem
      rcases List.mem_append.mp hlmem with hlm | hlm
      · have hyy : y' ∈ g.yarns := by
          by_contra hyy
          rw [h.offYarn y' hyy] at hlm
          cases hlm
        have hown := h.own y' hyy l hlm
        have hlne : l ≠ lid := Nat.ne_of_lt (hfresh l hown.2)
        rw [updf_other _ _ _ _ hlne]
        exact ⟨hown.1, List.mem_append_left _ hown.2⟩
      · rw [List.mem_singleton.mp hlm]
        rw [updf_same]
        exact ⟨rfl, List.mem_append_right _ (List.mem_singleton_self lid)⟩
    · rw [updf_other _ _ _ _ hne] at hlmem
      have hown := h.own y' (hyarnsInv y' hy' hne) l hlmem
      have hlne : l ≠ lid := Nat.ne_of_lt (hfresh l hown.2)
      rw [updf_other _ _ _ _ hlne]
      exact ⟨hown.1, List.mem_append_left _ hown.2⟩
  · -- cover
    intro l hlmem
    rcases List.mem_append.mp hlmem with hlm | hlm
    · have hcov := h.cover l hlm
      have hlne : l ≠ lid := Nat.ne_of_lt (hfresh l hlm)
      rw [updf_other _ _ _ _ hlne]
      refine ⟨hyarnsSub _ hcov.1, ?_⟩
      by_cases hne : g.yarnOf l = y
      · rw [hne, updf_same, hysNodes]
        rw [hne] at hcov
        exact List.mem_append_left _ hcov.2
      · rw [updf_other _ _ _ _ hne]
        exact hcov.2
    · rw [List.mem_singleton.mp hlm, updf_same]
      refine ⟨hyInYarns, ?_⟩
      rw [updf_same, hysNodes]
      exact List.mem_append_right _ (List.mem_singleton_self lid)
  · -- off-yarn states are empty
    intro y' hy'
    have hne : y' ≠ y := fun he => hy' (he ▸ hyInYarns)
    rw [updf_other _ _ _ _ hne]
    exact h.offYarn y' (fun hm => hy' (hyarnsSub y' hm))

theorem yr_sub (g : KG) (y : ℕ) (ys2 : YarnM) (yr : List ℕ)
    (hyr : (ys2.nodes = [] ∧ yr = g.yarns.erase y) ∨ (ys2.nodes ≠ [] ∧ yr = g.yarns)) :
    ∀ y' ∈ yr, y' ∈ g.yarns := by
  intro y' hy'
  rcases hyr with ⟨_, hyr⟩ | ⟨_, hyr⟩
  · rw [hyr] at hy'
    exact List.mem_of_mem_erase hy'
  · rw [hyr] at hy'
    exact hy'

theorem mx_bound (g : KG) (l y : ℕ) (h : KGInv g)
    (_hlmem : l ∈ g.nodes) (hyOf : g.yarnOf l = y) (hyin : y ∈ g.yarns)
    (ys2 : YarnM) (hys2Inv : YarnInv ys2)
    (hys2nodes : ys2.nodes = (g.ystate y).nodes.erase l)
    (yst : ℕ → YarnM) (hsty : yst y = ys2)
    (hstother : ∀ y', y' ≠ y → yst y' = g.ystate y')
    (yr : List ℕ)
    (hyr : (ys2.nodes = [] ∧ yr = g.yarns.erase y) ∨ (ys2.nodes ≠ [] ∧ yr = g.yarns))
    (mx : ℕ) (hmax : listMax (yr.filterMap fun yy => (yst yy).last) = some mx) :
    mx ∈ g.nodes.erase l ∧ ∀ x ∈ g.nodes.erase l, x ≤ mx := by
  have hysInv : YarnInv (g.ystate y) := h.yarnInv y hyin
  have hysnd : (g.ystate y).nodes.Nodup := yarnInv_nodup hysInv
  -- every yarn of yr has a well-formed non-empty state included in the remaining nodes
  have hstfacts : ∀ y' ∈ yr, YarnInv (yst y') ∧ (yst y').nodes ≠ [] ∧
      ∀ x ∈ (yst y').nodes, x ∈ g.nodes.erase l := by
    intro y' hy'
    by_cases hne : y' = y
    · subst hne
      have hne2 : ys2.nodes ≠ [] := by
        rcases hyr with ⟨hnil, hyr⟩ | ⟨hnn, _⟩
        · exfalso
          rw [hyr] at hy'
          exact (List.Nodup.mem_erase_iff h.yarnsNodup).mp hy' |>.1 rfl
        · exact hnn
      rw [hsty]
      refine ⟨hys2Inv, hne2, ?_⟩
      intro x hx
      rw [hys2nodes] at hx
      have hxs : x ∈ (g.ystate y').nodes := List.mem_of_mem_erase hx
      have hxl : x ≠ l := ((List.Nodup.mem_erase_iff hysnd).mp hx).1
      have hown := h.own y' hyin x hxs
      exact (List.Nodup.mem_erase_iff h.nodesNodup).mpr ⟨hxl, hown.2⟩
    · rw [hstother y' hne]
      have hy'in : y' ∈ g.yarns := yr_sub g y ys2 yr hyr y' hy'
      refine ⟨h.yarnInv y' hy'in, h.yarnNE y' hy'in, ?_⟩
      intro x hx
      have hown := h.own y' hy'in x hx
      have hxl : x ≠ l := fun he => hne (by rw [← hyOf, ← he, hown.1])
      exact (List.Nodup.mem_erase_iff h.nodesNodup).mpr ⟨hxl, hown.2⟩
  rcases listMax_spec (yr.filterMap fun yy => (yst yy).last) with ⟨_, hnone⟩ |
      ⟨m, hm, hmem, hle⟩
  · rw [hnone] at hmax; cases hmax
  · rw [hm] at hmax
    have hmx : m = mx := by injection hmax
    rw [← hmx]
    constructor
    · obtain ⟨y', hy', hlast⟩ := List.mem_filterMap.mp hmem
      obtain ⟨hinv', _, hsub⟩ := hstfacts y' hy'
      have : m ∈ (yst y').nodes := by
        apply mem_of_getLast?_eq
        rw [← hinv'.last_eq]
        exact hlast
      exact hsub m this
    · intro x hx
      have hxn : x ∈ g.nodes := List.mem_of_mem_erase hx
      have hxl : x ≠ l := ((List.Nodup.mem_erase_iff h.nodesNodup).mp hx).1
      obtain ⟨hcov1, hcov2⟩ := h.cover x hxn
      have hyyr : g.yarnOf x ∈ yr ∧ x ∈ (yst (g.yarnOf x)).nodes := by
        by_cases hne : g.yarnOf x = y
        · have hxys2 : x ∈ ys2.nodes := by
            rw [hys2nodes]
            refine (List.Nodup.mem_erase_iff hysnd).mpr ⟨hxl, ?_⟩
            rw [← hne]
            exact hcov2
          have hne2 : ys2.nodes ≠ [] := fun he => by rw [he] at hxys2; cases hxys2
          rcases hyr with ⟨hnil, _⟩ | ⟨_, hyr⟩
          · exact absurd hnil hne2
          · rw [hyr, hne]
            refine ⟨hyin, ?_⟩
            rw [hsty]
            exact hxys2
        · constructor
          · rcases hyr with ⟨_, hyr⟩ | ⟨_, hyr⟩
            · rw [hyr]
              exact (List.Nodup.mem_erase_iff h.yarnsNodup).mpr ⟨hne, hcov1⟩
            · rw [hyr]; exact hcov1
          · rw [hstother _ hne]
            exact hcov2
      obtain ⟨hinv'', _, _⟩ := hstfacts _ hyyr.1
      obtain ⟨mm, hmm⟩ : ∃ mm, (yst (g.yarnOf x)).last = some mm := by
        cases hc : (yst (g.yarnOf x)).nodes with
        | nil => exact absurd hc (hstfacts _ hyyr.1).2.1
        | cons a t =>
          refine ⟨(a :: t).getLast (by simp), ?_⟩
          rw [hinv''.last_eq, hc, List.getLast?_eq_getLast _ (by simp)]
      have hxle : x ≤ mm := by
        apply chain'_le_getLast hinv''.chain x hyyr.2 mm
        rw [← hinv''.last_eq]
        exact hmm
      have hmmle : mm ≤ m := by
        apply hle
        exact List.mem_filterMap.mpr ⟨g.yarnOf x, hyyr.1, hmm⟩
      exact Nat.le_trans hxle hmmle

theorem inv_remove_core (g : KG) (l y : ℕ) (h : KGInv g)
    (_hlmem : l ∈ g.nodes) (hyOf : g.yarnOf l = y) (hyin : y ∈ g.yarns)
    (ys2 : YarnM) (hys2Inv : YarnInv ys2)
    (hys2nodes : ys2.nodes = (g.ystate y).nodes.erase l)
    (yst : ℕ → YarnM) (hsty : yst y = ys2)
    (hstother : ∀ y', y' ≠ y → yst y' = g.ystate y')
    (yr : List ℕ)
    (hyr : (ys2.nodes = [] ∧ yr = g.yarns.erase y) ∨ (ys2.nodes ≠ [] ∧ yr = g.yarns))
    (st : List (ℕ × ℕ × PullDir)) (pr : ℕ → List ℕ) (li : List ℕ) (br : List (ℕ × ℕ))
    (ll : Option ℕ)
    (hll : match ll with
      | none => g.nodes.erase l = []
      | some m => m ∈ g.nodes.erase l ∧ ∀ x ∈ g.nodes.erase l, x ≤ m) :
    KGInv { nodes := g.nodes.erase l, stitches := st, parents := pr, loopIds := li,
            lastLoop := ll, yarns := yr, yarnOf := g.yarnOf, ystate := yst,
            braid := br } := by
  have hysInv : YarnInv (g.ystate y) := h.yarnInv y hyin
  have hysnd : (g.ystate y).nodes.Nodup := yarnInv_nodup hysInv
  refine ⟨hll, List.Nodup.erase l h.nodesNodup, ?_, ?_, ?_, ?_, ?_, ?_⟩ <;> dsimp only
  · -- yarns nodup
    rcases hyr with ⟨_, hyr⟩ | ⟨_, hyr⟩
    · rw [hyr]; exact List.Nodup.erase y h.yarnsNodup
    · rw [hyr]; exact h.yarnsNodup
  · -- yarn invariants
    intro y' hy'
    by_cases hne : y' = y
    · subst hne; rw [hsty]; exact hys2Inv
    · rw [hstother y' hne]
      exact h.yarnInv y' (yr_sub g y ys2 yr hyr y' hy')
  · -- yarns non-empty
    intro y' hy'
    by_cases hne : y' = y
    · subst hne
      rw [hsty]
      rcases hyr with ⟨hnil, hyr⟩ | ⟨hnn, _⟩
      · exfalso
        rw [hyr] at hy'
        exact (List.Nodup.mem_erase_iff h.yarnsNodup).mp hy' |>.1 rfl
      · exact hnn
    · rw [hstother y' hne]
      exact h.yarnNE y' (yr_sub g y ys2 yr hyr y' hy')
  · -- own
    intro y' hy' x hx
    by_cases hne : y' = y
    · subst hne
      rw [hsty] at hx
      rw [hys2nodes] at hx
      have hxs : x ∈ (g.ystate y').nodes := List.mem_of_mem_erase hx
      have hxl : x ≠ l := ((List.Nodup.mem_erase_iff hysnd).mp hx).1
      have hown := h.own y' hyin x hxs
      exact ⟨hown.1, (List.Nodup.mem_erase_iff h.nodesNodup).mpr ⟨hxl, hown.2⟩⟩
    · rw [hstother y' hne] at hx
      have hy'in : y' ∈ g.yarns := yr_sub g y ys2 yr hyr y' hy'
      have hown := h.own y' hy'in x hx
      have hxl : x ≠ l := fun he => hne (by rw [← hyOf, ← he, hown.1])
      exact ⟨hown.1, (List.Nodup.mem_erase_iff h.nodesNodup).mpr ⟨hxl, hown.2⟩⟩
  · -- cover
    intro x hx
    have hxn : x ∈ g.nodes := List.mem_of_mem_erase hx
    have hxl : x ≠ l := ((List.Nodup.mem_erase_iff h.nodesNodup).mp hx).1
    obtain ⟨hcov1, hcov2⟩ := h.cover x hxn
    by_cases hne : g.yarnOf x = y
    · have hxys2 : x ∈ ys2.nodes := by
        rw [hys2nodes]
        refine (List.Nodup.mem_erase_iff hysnd).mpr ⟨hxl, ?_⟩
        rw [← hne]
        exact hcov2
      have hne2 : ys2.nodes ≠ [] := fun he => by rw [he] at hxys2; cases hxys2
      rcases hyr with ⟨hnil, _⟩ | ⟨_, hyr⟩
      · exact absurd hnil hne2
      · rw [hyr, hne]
        refine ⟨hyin, ?_⟩
        rw [hsty]
        exact hxys2
    · constructor
      · rcases hyr with ⟨_, hyr⟩ | ⟨_, hyr⟩
        · rw [hyr]
          exact (List.Nodup.mem_erase_iff h.yarnsNodup).mpr ⟨hne, hcov1⟩
        · rw [hyr]; exact hcov1
      · rw [hstother _ hne]
        exact hcov2
  · -- off-yarn states are empty
    intro y' hy'
    by_cases hne : y' = y
    · subst hne
      rw [hsty]
      rcases hyr with ⟨hnil, _⟩ | ⟨_, hyr⟩
      · exact yarn_eq_empty hys2Inv hnil
      · exfalso
        rw [hyr] at hy'
        exact hy' hyin
    · rw [hstother y' hne]
      apply h.offYarn y'
      intro hy'in
      apply hy'
      rcases hyr with ⟨_, hyr⟩ | ⟨_, hyr⟩
      · rw [hyr]
        exact (List.Nodup.mem_erase_iff h.yarnsNodup).mpr ⟨hne, hy'in⟩
      · rw [hyr]; exact hy'in

theorem remove_loop_eq (g : KG) (l : ℕ) (hc : g.containsLoop l = true) :
    g.remove_loop l =
      (if g.lastLoop = some l then
        if (removeLoopBase g l).yarns.length = 0 then
          if (removeLoopBase g l).nodes.length = 0 then
            ({ removeLoopBase g l with lastLoop := none }, none)
          else (removeLoopBase g l, some .assertErr)
        else
          match listMax ((removeLoopBase g l).yarns.filterMap
              (fun yy => ((removeLoopBase g l).ystate yy).last)) with
          | some m => ({ removeLoopBase g l with lastLoop := some m }, none)
          | none => (removeLoopBase g l, some .valueErr)
      else (removeLoopBase g l, none)) := by
  rw [KG.remove_loop, if_neg (by simp [hc])]
  dsimp only [KG.get_child_loop, removeLoopBase]
  cases hfind : g.stitches.find? (fun e => e.1 = l) with
  | none =>
    dsimp only [Option.map]
    simp only [updf_same]
    by_cases h8 :
        (((removeFloatOccupant (g.ystate (g.yarnOf l)) l).removeLoop l).nodes).length = 0
    · simp only [if_pos h8]
    · simp only [if_neg h8]
  | some e =>
    dsimp only [Option.map]
    simp only [updf_same]
    by_cases h8 :
        (((removeFloatOccupant (g.ystate (g.yarnOf l)) l).removeLoop l).nodes).length = 0
    · simp only [if_pos h8]
    · simp only [if_neg h8]

theorem yarn_last_isSome {ys : YarnM} (hinv : YarnInv ys) (hne : ys.nodes ≠ []) :
    ∃ m, ys.last = some m := by
  cases hcn : ys.nodes with
  | nil => exact absurd hcn hne
  | cons a t =>
    refine ⟨(a :: t).getLast (by simp), ?_⟩
    rw [hinv.last_eq, hcn, List.getLast?_eq_getLast _ (by simp)]

theorem inv_remove (g : KG) (l : ℕ) (h : KGInv g) :
    KGInv (g.remove_loop l).1 ∧
    (g.lastLoop = some l →
      (g.remove_loop l).1.lastLoop =
        listMax ((g.remove_loop l).1.yarns.filterMap
          fun yy => ((g.remove_loop l).1.ystate yy).last)) := by
  by_cases hc : g.containsLoop l = true
  · -- the loop is present: the body runs
    have hlmem : l ∈ g.nodes := by
      rw [KG.containsLoop] at hc; simpa using hc
    obtain ⟨hyin, hlys⟩ := h.cover l hlmem
    have hysInv : YarnInv (g.ystate (g.yarnOf l)) := h.yarnInv _ hyin
    have hrfInv : YarnInv (removeFloatOccupant (g.ystate (g.yarnOf l)) l) :=
      yarnInv_removeFloatOccupant _ l hysInv
    have hlrf : l ∈ (removeFloatOccupant (g.ystate (g.yarnOf l)) l).nodes := by
      rw [removeFloatOccupant_nodes]; exact hlys
    have hys2Inv : YarnInv ((removeFloatOccupant (g.ystate (g.yarnOf l)) l).removeLoop l) :=
      (yarnInv_removeLoop _ l hrfInv hlrf).1
    have hys2nodes : ((removeFloatOccupant (g.ystate (g.yarnOf l)) l).removeLoop l).nodes =
        (g.ystate (g.yarnOf l)).nodes.erase l := by
      rw [(yarnInv_removeLoop _ l hrfInv hlrf).2, removeFloatOccupant_nodes]
    have hstother : ∀ y', y' ≠ g.yarnOf l →
        updf (updf g.ystate (g.yarnOf l) (removeFloatOccupant (g.ystate (g.yarnOf l)) l))
          (g.yarnOf l)
          ((removeFloatOccupant (g.ystate (g.yarnOf l)) l).removeLoop l) y'
        = g.ystate y' := by
      intro y' hne
      rw [updf_other _ _ _ _ hne, updf_other _ _ _ _ hne]
    rw [remove_loop_eq g l hc]
    dsimp only [removeLoopBase]
    by_cases h8 : (((removeFloatOccupant (g.ystate (g.yarnOf l)) l).removeLoop l).nodes).length = 0
    · simp only [if_pos h8]
      by_cases hgl : g.lastLoop = some l
      · simp only [if_pos hgl]
        by_cases hy0 : (g.yarns.erase (g.yarnOf l)).length = 0
        · simp only [if_pos hy0]
          by_cases hn0 : (g.nodes.erase l).length = 0
          · simp only [if_pos hn0]
            refine ⟨?_, fun _ => ?_⟩
            · exact inv_remove_core g l (g.yarnOf l) h hlmem rfl hyin _ hys2Inv hys2nodes
                _ (updf_same _ _ _) hstother _
                (Or.inl ⟨List.length_eq_zero.mp h8, rfl⟩) _ _ _ _ _
                (List.length_eq_zero.mp hn0)
            · rw [List.length_eq_zero.mp hy0]
              rfl
          · -- would assert: but under the invariant an empty yarn set forces an empty graph
            exfalso
            apply hn0
            have herased : g.nodes.erase l = [] := by
              rw [List.eq_nil_iff_forall_not_mem]
              intro x hx
              have hxn : x ∈ g.nodes := List.mem_of_mem_erase hx
              have hxl : x ≠ l := ((List.Nodup.mem_erase_iff h.nodesNodup).mp hx).1
              obtain ⟨hc1, hc2⟩ := h.cover x hxn
              have hyx : g.yarnOf x = g.yarnOf l := by
                by_contra hne
                have hmm : g.yarnOf x ∈ g.yarns.erase (g.yarnOf l) :=
                  (List.Nodup.mem_erase_iff h.yarnsNodup).mpr ⟨hne, hc1⟩
                rw [List.length_eq_zero.mp hy0] at hmm
                cases hmm
              rw [hyx] at hc2
              have hmm : x ∈ ((g.ystate (g.yarnOf l)).nodes).erase l :=
                (List.Nodup.mem_erase_iff (yarnInv_nodup hysInv)).mpr ⟨hxl, hc2⟩
              rw [← hys2nodes, List.length_eq_zero.mp h8] at hmm
              cases hmm
            rw [herased]
            rfl
        · simp only [if_neg hy0]
          split
          next m hmx =>
            refine ⟨?_, fun _ => ?_⟩
            · exact inv_remove_core g l (g.yarnOf l) h hlmem rfl hyin _ hys2Inv hys2nodes
                _ (updf_same _ _ _) hstother _
                (Or.inl ⟨List.length_eq_zero.mp h8, rfl⟩) _ _ _ _ _
                (mx_bound g l (g.yarnOf l) h hlmem rfl hyin _ hys2Inv hys2nodes
                  _ (updf_same _ _ _) hstother _
                  (Or.inl ⟨List.length_eq_zero.mp h8, rfl⟩) m hmx)
            · exact hmx.symm
          next hmx =>
            -- the max cannot fail: every remaining yarn still holds a loop
            exfalso
            have hfm := List.filterMap_eq_nil_iff.mp (by
              rcases listMax_spec ((g.yarns.erase (g.yarnOf l)).filterMap
                  fun yy => (updf (updf g.ystate (g.yarnOf l)
                    (removeFloatOccupant (g.ystate (g.yarnOf l)) l)) (g.yarnOf l)
                    ((removeFloatOccupant (g.ystate (g.yarnOf l)) l).removeLoop l) yy).last)
                with ⟨hnil, _⟩ | ⟨m, hm, _, _⟩
              · exact hnil
              · rw [hm] at hmx; cases hmx)
            have hyrne : g.yarns.erase (g.yarnOf l) ≠ [] :=
              fun he => hy0 (by rw [he]; rfl)
            obtain ⟨y0, hy0mem⟩ := List.exists_mem_of_ne_nil _ hyrne
            have hy0ne : y0 ≠ g.yarnOf l :=
              ((List.Nodup.mem_erase_iff h.yarnsNodup).mp hy0mem).1
            have hy0in : y0 ∈ g.yarns := List.mem_of_mem_erase hy0mem
            have hlast := hfm y0 hy0mem
            rw [updf_other _ _ _ _ hy0ne, updf_other _ _ _ _ hy0ne] at hlast
            obtain ⟨m0, hm0⟩ := yarn_last_isSome (h.yarnInv y0 hy0in) (h.yarnNE y0 hy0in)
            rw [hm0] at hlast
            cases hlast
      · simp only [if_neg hgl]
        refine ⟨?_, fun hl => absurd hl hgl⟩
        refine inv_remove_core g l (g.yarnOf l) h hlmem rfl hyin _ hys2Inv hys2nodes
          _ (updf_same _ _ _) hstother _
          (Or.inl ⟨List.length_eq_zero.mp h8, rfl⟩) _ _ _ _ _ ?_
        cases hgl2 : g.lastLoop with
        | none =>
          have hlo := h.lastOK
          rw [hgl2] at hlo
          dsimp only at hlo ⊢
          rw [hlo]
          rfl
        | some m =>
          have hlo := h.lastOK
          rw [hgl2] at hlo
          dsimp only at hlo ⊢
          have hml : m ≠ l := fun he => hgl (by rw [hgl2, he])
          refine ⟨(List.Nodup.mem_erase_iff h.nodesNodup).mpr ⟨hml, hlo.1⟩, ?_⟩
          intro x hx
          exact hlo.2 x (List.mem_of_mem_erase hx)
    · simp only [if_neg h8]
      have h8ne : ((removeFloatOccupant (g.ystate (g.yarnOf l)) l).removeLoop l).nodes ≠ [] :=
        fun he => h8 (by rw [he]; rfl)
      by_cases hgl : g.lastLoop = some l
      · simp only [if_pos hgl]
        by_cases hy0 : g.yarns.length = 0
        · exfalso
          rw [List.length_eq_zero.mp hy0] at hyin
          cases hyin
        · simp only [if_neg hy0]
          split
          next m hmx =>
            refine ⟨?_, fun _ => ?_⟩
            · exact inv_remove_core g l (g.yarnOf l) h hlmem rfl hyin _ hys2Inv hys2nodes
                _ (updf_same _ _ _) hstother _ (Or.inr ⟨h8ne, rfl⟩) _ _ _ _ _
                (mx_bound g l (g.yarnOf l) h hlmem rfl hyin _ hys2Inv hys2nodes
                  _ (updf_same _ _ _) hstother _ (Or.inr ⟨h8ne, rfl⟩) m hmx)
            · exact hmx.symm
          next hmx =>
            exfalso
            have hfm := List.filterMap_eq_nil_iff.mp (by
              rcases listMax_spec (g.yarns.filterMap
                  fun yy => (updf (updf g.ystate (g.yarnOf l)
                    (removeFloatOccupant (g.ystate (g.yarnOf l)) l)) (g.yarnOf l)
                    ((removeFloatOccupant (g.ystate (g.yarnOf l)) l).removeLoop l) yy).last)
                with ⟨hnil, _⟩ | ⟨m, hm, _, _⟩
              · exact hnil
              · rw [hm] at hmx; cases hmx)
            have hlast := hfm (g.yarnOf l) hyin
            rw [updf_same] at hlast
            obtain ⟨m0, hm0⟩ := yarn_last_isSome hys2Inv h8ne
            rw [hm0] at hlast
            cases hlast
      · simp only [if_neg hgl]
        refine ⟨?_, fun hl => absurd hl hgl⟩
        refine inv_remove_core g l (g.yarnOf l) h hlmem rfl hyin _ hys2Inv hys2nodes
          _ (updf_same _ _ _) hstother _ (Or.inr ⟨h8ne, rfl⟩) _ _ _ _ _ ?_
        cases hgl2 : g.lastLoop with
        | none =>
          have hlo := h.lastOK
          rw [hgl2] at hlo
          dsimp only at hlo ⊢
          rw [hlo]
          rfl
        | some m =>
          have hlo := h.lastOK
          rw [hgl2] at hlo
          dsimp only at hlo ⊢
          have hml : m ≠ l := fun he => hgl (by rw [hgl2, he])
          refine ⟨(List.Nodup.mem_erase_iff h.nodesNodup).mpr ⟨hml, hlo.1⟩, ?_⟩
          intro x hx
          exact hlo.2 x (List.mem_of_mem_erase hx)
  · -- absent loop: KeyError, graph unchanged
    have hcf : g.containsLoop l = false := by simpa using hc
    rw [KG.remove_loop, if_pos (by simp [hcf])]
    refine ⟨h, fun hl => ?_⟩
    exfalso
    have hlo := h.lastOK
    rw [hl] at hlo
    apply hc
    rw [KG.containsLoop]
    simpa using hlo.1

theorem reach_inv (g : KG) (hg : Reach g) : KGInv g := by
  induction hg with
  | init => exact inv_empty
  | make g y _ ih => exact inv_make g y ih
  | connect g p c d pos _ ih => exact inv_connect g p c d pos ih
  | remove g l _ ih => exact (inv_remove g l ih).1

/-- **C5.** For every knit graph state reachable by any sequence of loop
creations (`make_loop_on_end`, which appends via `Yarn.insert_loop`),
connections (`connect_loops`) and removals (`remove_loop`) from the empty
graph, `last_loop` is the loop of maximum id among all currently-present
loops (or `None` when the graph is empty); and whenever the current last loop
is removed, the new last-loop pointer equals the maximum id among the
remaining yarns' last loops (`None` when the graph becomes empty, since
`listMax` of the empty yarn list is `none`). -/
theorem C5_last_loop_max (g : KG) (hg : Reach g) :
    (match g.lastLoop with
      | none => g.nodes = []
      | some m => m ∈ g.nodes ∧ ∀ x ∈ g.nodes, x ≤ m) ∧
    ∀ m, g.lastLoop = some m →
      (g.remove_loop m).1.lastLoop =
        listMax ((g.remove_loop m).1.yarns.filterMap
          fun yy => ((g.remove_loop m).1.ystate yy).last) := by
  have hinv := reach_inv g hg
  exact ⟨hinv.lastOK, fun m hm => (inv_remove g m hinv).2 hm⟩

theorem C5_last_loop_max_witness :
    kgTwo.lastLoop = some 1 ∧ 1 ∈ kgTwo.nodes ∧
    (kgTwo.remove_loop 1).1.lastLoop =
      listMax ((kgTwo.remove_loop 1).1.yarns.filterMap
        fun yy => ((kgTwo.remove_loop 1).1.ystate yy).last) := by
  have h5 := C5_last_loop_max kgTwo (Reach.make _ 0 (Reach.make _ 0 Reach.init))
  have h1 : (1 : ℕ) ∈ kgTwo.nodes ∧ ∀ x ∈ kgTwo.nodes, x ≤ 1 := h5.1
  exact ⟨rfl, h1.1, h5.2 1 rfl⟩
